import Mathlib

/-!
Shallow embedding of the bitswap query engine of this repository
(`src/query.rs`, `src/protocol.rs`, `src/behaviour.rs`).

Machine integers (`u64` query ids, `usize` lengths) are modelled as `Nat`:
the id counter only ever increments and the lengths are bounded by small
constants, so overflow is unreachable on every path the theorems touch.
`FnvHashMap` is modelled as an association list with no duplicate keys
(`insertQ` erases before appending) and `FnvHashSet` as a duplicate-free
list (`insertId` appends only when absent); `VecDeque` push_back/pop_front
becomes list append/head.  Metrics, timers and tracing are side effects
with no bearing on the claims and are dropped, except the two byte
counters of `behaviour.rs` which claim C9 is about and which are carried
explicitly in the `Bitswap` state.  A Rust panic (the `assert!` in
`QueryManager::get`, an `unwrap` of a missing parent) is modelled as
`Option.none`.
-/

/-- Peer identifier (`libp2p::PeerId`): opaque comparable identity. -/
abbrev PeerId := Nat

/-- Content identifier (`libipld::Cid`): opaque to the query engine other
than equality and hashability. -/
abbrev Cid := Nat

/-- Query id (`struct QueryId(u64)` in `src/query.rs`). -/
abbrev QueryId := Nat

/-- `enum Request` of `src/query.rs`. -/
inductive Request where
  | Have : PeerId → Cid → Request
  | Block : PeerId → Cid → Request
  | MissingBlocks : Cid → Request
deriving DecidableEq, Repr

/-- `enum Response` of `src/query.rs`. -/
inductive Response where
  | Have : PeerId → Bool → Response
  | Block : PeerId → Bool → Response
  | MissingBlocks : List Cid → Response
deriving DecidableEq, Repr

deriving instance DecidableEq for Except

/-- `enum QueryEvent` of `src/query.rs`; `Result<(), Cid>` becomes
`Except Cid Unit`. -/
inductive QueryEvent where
  | Request : QueryId → Request → QueryEvent
  | Progress : QueryId → Nat → QueryEvent
  | Complete : QueryId → Except Cid Unit → QueryEvent
deriving DecidableEq, Repr

/-- `struct Header` of `src/query.rs` (the metrics timer is dropped). -/
structure Header where
  id : QueryId
  root : QueryId
  parent : Option QueryId
  cid : Cid
  label : String
deriving DecidableEq, Repr

/-- `struct GetState` of `src/query.rs`; the Rust field `have` is a Lean
keyword and is rendered `have'`. -/
structure GetState where
  have' : List QueryId
  block : Option QueryId
  providers : List PeerId
deriving DecidableEq, Repr

/-- `struct SyncState` of `src/query.rs`. -/
structure SyncState where
  missing : List QueryId
  children : List QueryId
  providers : List PeerId
deriving DecidableEq, Repr

/-- `enum State` of `src/query.rs`. -/
inductive State where
  | None : State
  | Get : GetState → State
  | Sync : SyncState → State
deriving DecidableEq, Repr

/-- `struct Query` of `src/query.rs`. -/
structure Query where
  hdr : Header
  state : State
deriving DecidableEq, Repr

/-- `enum Transition<S, C>` of `src/query.rs`. -/
inductive Transition (S C : Type) where
  | Next : S → Transition S C
  | Complete : C → Transition S C
deriving DecidableEq

/-- Lookup in the live-queries map (`FnvHashMap<QueryId, Query>`). -/
def findQ : List (QueryId × Query) → QueryId → Option Query
  | [], _ => none
  | p :: l, id => if p.1 = id then some p.2 else findQ l id

/-- Removal from the live-queries map (`HashMap::remove`). -/
def eraseQ (l : List (QueryId × Query)) (id : QueryId) : List (QueryId × Query) :=
  l.filter (fun p => p.1 ≠ id)

/-- Insertion into the live-queries map (`HashMap::insert` overwrites). -/
def insertQ (l : List (QueryId × Query)) (id : QueryId) (q : Query) : List (QueryId × Query) :=
  eraseQ l id ++ [(id, q)]

/-- `FnvHashSet::insert` on an id set modelled as a duplicate-free list. -/
def insertId (l : List QueryId) (id : QueryId) : List QueryId :=
  if id ∈ l then l else l ++ [id]

/-- `FnvHashSet::remove`. -/
def removeId (l : List QueryId) (id : QueryId) : List QueryId :=
  l.filter (fun x => x ≠ id)

/-- `struct QueryManager` of `src/query.rs`. -/
structure QueryManager where
  id_counter : Nat
  queries : List (QueryId × Query)
  events : List QueryEvent
deriving DecidableEq, Repr

namespace QueryManager

/-- `QueryManager::start_query` (`src/query.rs:137`): allocate a fresh id,
record a stateless sub-query and enqueue its `Request` event. -/
def start_query (m : QueryManager) (root : QueryId) (parent : Option QueryId)
    (cid : Cid) (req : Request) (label : String) : QueryManager × QueryId :=
  let id := m.id_counter
  let query : Query := ⟨⟨id, root, parent, cid, label⟩, State.None⟩
  ({ m with
      id_counter := m.id_counter + 1
      queries := insertQ m.queries id query
      events := m.events ++ [QueryEvent.Request id req] }, id)

/-- `QueryManager::have` (`src/query.rs:168`); `have` is a Lean keyword,
hence `have'`. -/
def have' (m : QueryManager) (root parent : QueryId) (peer_id : PeerId) (cid : Cid) :
    QueryManager × QueryId :=
  m.start_query root (some parent) cid (Request.Have peer_id cid) "have"

/-- `QueryManager::block` (`src/query.rs:173`). -/
def block (m : QueryManager) (root parent : QueryId) (peer_id : PeerId) (cid : Cid) :
    QueryManager × QueryId :=
  m.start_query root (some parent) cid (Request.Block peer_id cid) "block"

/-- `QueryManager::missing_blocks` (`src/query.rs:184`). -/
def missing_blocks (m : QueryManager) (parent : QueryId) (cid : Cid) :
    QueryManager × QueryId :=
  m.start_query parent (some parent) cid (Request.MissingBlocks cid) "missing-blocks"

/-- The provider loop of `QueryManager::get` (`src/query.rs:209`): the first
peer (while `block` is `None`) becomes the block sub-query, every further
peer a have probe. -/
def get_loop (root id : QueryId) (cid : Cid) :
    QueryManager → GetState → List PeerId → QueryManager × GetState
  | m, s, [] => (m, s)
  | m, s, peer :: rest =>
    if s.block = none then
      let r := m.block root id peer cid
      get_loop root id cid r.1 { s with block := some r.2 } rest
    else
      let r := m.have' root id peer cid
      get_loop root id cid r.1 { s with have' := insertId s.have' r.2 } rest

/-- `QueryManager::get` (`src/query.rs:195`). The source asserts
`state.block.is_some()` after the loop (panics when the providers iterator
was empty); the panic is modelled as `none`. -/
def get (m : QueryManager) (parent : Option QueryId) (cid : Cid)
    (providers : List PeerId) : Option (QueryManager × QueryId) :=
  let id := m.id_counter
  let m1 : QueryManager := { m with id_counter := m.id_counter + 1 }
  let root := parent.getD id
  let r := get_loop root id cid m1 ⟨[], none, []⟩ providers
  if r.2.block = none then none
  else
    some ({ r.1 with
        queries := insertQ r.1.queries id ⟨⟨id, root, parent, cid, "get"⟩, State.Get r.2⟩ }, id)

/-- The missing-cid loop of `QueryManager::sync` (`src/query.rs:247`):
spawn a `get` per missing cid, collecting the ids. -/
def sync_loop (id : QueryId) (providers : List PeerId) :
    QueryManager → List QueryId → List Cid → Option (QueryManager × List QueryId)
  | m, acc, [] => some (m, acc)
  | m, acc, cid :: rest =>
    match m.get (some id) cid providers with
    | some (m', gid) => sync_loop id providers m' (insertId acc gid) rest
    | none => none

/-- `QueryManager::sync` (`src/query.rs:234`). -/
def sync (m : QueryManager) (cid : Cid) (providers : List PeerId)
    (missing : List Cid) : Option (QueryManager × QueryId) :=
  let id := m.id_counter
  let m1 : QueryManager := { m with id_counter := m.id_counter + 1 }
  match sync_loop id providers m1 [] missing with
  | none => none
  | some (m2, missingIds) =>
    let r :=
      if missingIds = [] then
        let rmb := m2.missing_blocks id cid
        (rmb.1, [rmb.2])
      else (m2, ([] : List QueryId))
    let st : SyncState := ⟨missingIds, r.2, providers⟩
    some ({ r.1 with
        queries := insertQ r.1.queries id ⟨⟨id, id, none, cid, "sync"⟩, State.Sync st⟩ }, id)

/-- The retain closure of `QueryManager::cancel` (`src/query.rs:279-290`):
keep every `Complete` event, keep `Progress` events of other roots, and
keep a `Request` event unless its id maps, in the map with the root
already removed, to a record rooted at the cancelled id. -/
def cancelRetain (queries' : List (QueryId × Query)) (root : QueryId) : QueryEvent → Bool
  | QueryEvent.Request id _ =>
    decide (¬ ((findQ queries' id).map (fun q => q.hdr.root) = some root))
  | QueryEvent.Progress id _ => decide (id ≠ root)
  | QueryEvent.Complete _ _ => true

/-- `QueryManager::cancel` (`src/query.rs:272`): remove the root record,
retain only the events the source keeps, then remove the `missing`
children of a sync root, or re-insert a stateless record and report
failure. -/
def cancel (m : QueryManager) (root : QueryId) : QueryManager × Bool :=
  match findQ m.queries root with
  | none => (m, false)
  | some query =>
    let queries' := eraseQ m.queries root
    let events' := m.events.filter (cancelRetain queries' root)
    match query.state with
    | State.Get _ => ({ m with queries := queries', events := events' }, true)
    | State.Sync st =>
      ({ m with
          queries := st.missing.foldl (fun qs id => eraseQ qs id) queries'
          events := events' }, true)
    | State.None => ({ m with queries := insertQ queries' root query, events := events' }, false)

/-- Modelled from the spec: `recv_sync` lies past the end of the provided
`src/query.rs` (the file stops inside the doc comment of `recv_get`);
per spec §4.2 the completion of a sync composite surfaces a
`Complete(root, res)` event. -/
def recv_sync (m : QueryManager) (query : Header) (res : Except Cid Unit) : QueryManager :=
  { m with events := m.events ++ [QueryEvent.Complete query.root res] }

/-- `QueryManager::sync_query` (`src/query.rs:339`): take the record out,
apply the transition function, re-insert on `Next` or finalise on
`Complete`.  As in the source, a record whose state is not `Sync` is
removed and dropped.  The transition function returns `Option` because
the closure of `recv_missing_blocks` spawns `get` sub-queries, which can
panic. -/
def sync_query (m : QueryManager) (id : QueryId)
    (f : QueryManager → Header → SyncState →
      Option (QueryManager × Transition SyncState (Except Cid Unit))) :
    Option QueryManager :=
  match findQ m.queries id with
  | none => some m
  | some parent =>
    let m1 : QueryManager := { m with queries := eraseQ m.queries id }
    match parent.state with
    | State.Sync st =>
      match f m1 parent.hdr st with
      | none => none
      | some (m2, Transition.Next st') =>
        some { m2 with queries := insertQ m2.queries id ⟨parent.hdr, State.Sync st'⟩ }
      | some (m2, Transition.Complete res) => some (m2.recv_sync parent.hdr res)
    | _ => some m1

/-- Modelled from the spec: `recv_get` lies past the end of the provided
`src/query.rs` (only its doc comment survives).  Per spec §4.2: when the
completed get is part of a sync, remove it from `missing`; on success
synthesise a `missing-blocks` probe for its cid tracked in `children`
(the sync completes only when both sets are empty — impossible right
after the insertion, so the state machine steps on); on failure the
entire sync fails with `Err(cid)`.  A get without a parent surfaces
`Complete(root, res)`. -/
def recv_get (m : QueryManager) (query : Header) (res : Except Cid Unit) :
    Option QueryManager :=
  match query.parent with
  | none => some { m with events := m.events ++ [QueryEvent.Complete query.root res] }
  | some pid =>
    m.sync_query pid (fun mgr parent st =>
      let st1 : SyncState := { st with missing := removeId st.missing query.id }
      match res with
      | Except.ok _ =>
        let r := mgr.missing_blocks parent.id query.cid
        some (r.1, Transition.Next { st1 with children := insertId st1.children r.2 })
      | Except.error cid => some (mgr, Transition.Complete (Except.error cid)))

/-- `QueryManager::get_query` (`src/query.rs:312`): take the record out,
apply the transition function, re-insert on `Next` or finalise via
`recv_get` on `Complete`.  A record whose state is not `Get` is removed
and dropped, as in the source. -/
def get_query (m : QueryManager) (id : QueryId)
    (f : QueryManager → Header → GetState →
      Option (QueryManager × Transition GetState (Except Cid Unit))) :
    Option QueryManager :=
  match findQ m.queries id with
  | none => some m
  | some parent =>
    let m1 : QueryManager := { m with queries := eraseQ m.queries id }
    match parent.state with
    | State.Get st =>
      match f m1 parent.hdr st with
      | none => none
      | some (m2, Transition.Next st') =>
        some { m2 with queries := insertQ m2.queries id ⟨parent.hdr, State.Get st'⟩ }
      | some (m2, Transition.Complete res) => m2.recv_get parent.hdr res
    | _ => some m1

/-- The provider-promotion step of the `recv_have` closure
(`src/query.rs:381-388`): when the block slot is free and the fallback
list is non-empty, pop the last provider (LIFO) and start a fresh block
sub-query. -/
def promote_provider (mgr : QueryManager) (parent : Header) (cid : Cid)
    (st : GetState) : QueryManager × GetState :=
  if st.block = none ∧ st.providers ≠ [] then
    match st.providers.getLast? with
    | some peer =>
      let rb := mgr.block parent.root parent.id peer cid
      (rb.1, { st with block := some rb.2, providers := st.providers.dropLast })
    | none => (mgr, st)
  else (mgr, st)

/-- The transition closure of `QueryManager::recv_have`
(`src/query.rs:373-397`): drop the answered probe, clear the block slot if
it was the answering sub-query, record the peer as provider on a positive
answer, promote a provider when the slot is free, and complete (with
`Err(cid)`; the `Ok` arm is dead, its guard contradicting the enclosing
condition) once probes, slot and providers are all exhausted. -/
def recv_have_step (query : Header) (peer_id : PeerId) (have_flag : Bool)
    (mgr : QueryManager) (parent : Header) (state : GetState) :
    Option (QueryManager × Transition GetState (Except Cid Unit)) :=
  let st1 : GetState := { state with have' := removeId state.have' query.id }
  let st2 : GetState := if st1.block = some query.id then { st1 with block := none } else st1
  let st3 : GetState :=
    if have_flag then { st2 with providers := st2.providers ++ [peer_id] } else st2
  let pr : QueryManager × GetState := promote_provider mgr parent query.cid st3
  if pr.2.have' = [] ∧ pr.2.block = none ∧ pr.2.providers = [] then
    if pr.2.providers = [] then some (pr.1, Transition.Complete (Except.error query.cid))
    else some (pr.1, Transition.Complete (Except.ok ()))
  else some (pr.1, Transition.Next pr.2)

/-- `QueryManager::recv_have` (`src/query.rs:372`).  The source unwraps
`query.parent`; a missing parent is a panic, modelled as `none`. -/
def recv_have (m : QueryManager) (query : Header) (peer_id : PeerId) (have_flag : Bool) :
    Option QueryManager :=
  match query.parent with
  | some pid => m.get_query pid (recv_have_step query peer_id have_flag)
  | none => none

/-- The transition closure of `QueryManager::recv_block`
(`src/query.rs:405-408`): record the peer as provider (the state is then
discarded by the completion) and complete with `Ok(())`. -/
def recv_block_step (peer_id : PeerId) (mgr : QueryManager) (_parent : Header)
    (state : GetState) :
    Option (QueryManager × Transition GetState (Except Cid Unit)) :=
  let _st : GetState := { state with providers := state.providers ++ [peer_id] }
  some (mgr, Transition.Complete (Except.ok ()))

/-- `QueryManager::recv_block` (`src/query.rs:403`). -/
def recv_block (m : QueryManager) (query : Header) (peer_id : PeerId) (block_flag : Bool) :
    Option QueryManager :=
  if block_flag then
    match query.parent with
    | some pid => m.get_query pid (recv_block_step peer_id)
    | none => none
  else m.recv_have query peer_id block_flag

/-- The spawning loop of `QueryManager::recv_missing_blocks`
(`src/query.rs:423-429`): a `get` per received cid, accumulated into the
sync's `missing` set. -/
def recv_missing_blocks_loop (root : QueryId) (providers : List PeerId) :
    QueryManager → List QueryId → List Cid → Option (QueryManager × List QueryId)
  | m, acc, [] => some (m, acc)
  | m, acc, cid :: rest =>
    match m.get (some root) cid providers with
    | some (m', gid) => recv_missing_blocks_loop root providers m' (insertId acc gid) rest
    | none => none

/-- `QueryManager::recv_missing_blocks` (`src/query.rs:418`).  The source
threads `num_missing` out of the `sync_query` closure through a mutable
reference, so the combinator is inlined here: remove the probe from
`children`, spawn a `get` per received cid, complete when `missing` and
`children` are both empty, and afterwards push `Progress(query.root,
num_missing)` whenever `num_missing != 0`. -/
def recv_missing_blocks (m : QueryManager) (query : Header) (missing : List Cid) :
    Option QueryManager :=
  match query.parent with
  | none => none
  | some pid =>
    match findQ m.queries pid with
    | none => some m
    | some parent =>
      let m1 : QueryManager := { m with queries := eraseQ m.queries pid }
      match parent.state with
      | State.Sync st =>
        let st1 : SyncState := { st with children := removeId st.children query.id }
        match recv_missing_blocks_loop parent.hdr.root st1.providers m1 st1.missing missing with
        | none => none
        | some (m2, missingIds) =>
          let st2 : SyncState := { st1 with missing := missingIds }
          let num_missing := st2.missing.length
          let m3 :=
            if st2.missing = [] ∧ st2.children = [] then
              m2.recv_sync parent.hdr (Except.ok ())
            else
              { m2 with queries := insertQ m2.queries pid ⟨parent.hdr, State.Sync st2⟩ }
          some (if num_missing ≠ 0 then
              { m3 with events := m3.events ++ [QueryEvent.Progress query.root num_missing] }
            else m3)
      | _ => some m1

/-- Modelled from the spec: `inject_response` lies past the end of the
provided `src/query.rs`.  Per spec §4.2 it "drives the machine": unknown
ids are silently discarded; a known record is destroyed on completion of
its response (the recv handlers receive only its header) and the response
is dispatched by variant. -/
def inject_response (m : QueryManager) (id : QueryId) (res : Response) :
    Option QueryManager :=
  match findQ m.queries id with
  | none => some m
  | some query =>
    let m1 : QueryManager := { m with queries := eraseQ m.queries id }
    match res with
    | Response.Have peer h => m1.recv_have query.hdr peer h
    | Response.Block peer b => m1.recv_block query.hdr peer b
    | Response.MissingBlocks missing => m1.recv_missing_blocks query.hdr missing

/-- Modelled from the spec: `next` lies past the end of the provided
`src/query.rs`; per spec §4.2 it "drains one event from the internal
queue" (FIFO). -/
def next (m : QueryManager) : Option (QueryEvent × QueryManager) :=
  match m.events with
  | [] => none
  | e :: es => some (e, { m with events := es })

/-- Modelled from the spec: `query_info` lies past the end of the provided
`src/query.rs`; per spec §4.2 it is a "read-only lookup for the behaviour
layer", returning the header of a live query. -/
def query_info (m : QueryManager) (id : QueryId) : Option Header :=
  (findQ m.queries id).map (fun q => q.hdr)

end QueryManager

/-! ### Wire codec (`src/protocol.rs`)

The codec works on byte strings; a byte string is a `List Nat`.  The
`StoreParams` type parameter of `BitswapCodec<P>` contributes only
`P::MAX_BLOCK_SIZE`, carried as an explicit argument. -/

/-- `MAX_CID_SIZE` (`src/protocol.rs:14`): "version codec hash size (u64
varint is max 10 bytes) + digest". -/
def MAX_CID_SIZE : Nat := 4 * 10 + 64

/-- The decode errors of the codec: `MessageTooLarge` is `src/protocol.rs`'s
error of the same name, the other two stand for the io/parse errors of
the read paths. -/
inductive CodecError where
  | MessageTooLarge : Nat → CodecError
  | InvalidMessage : CodecError
  | UnexpectedEof : CodecError
deriving DecidableEq, Repr

/-- `enum RequestType` of `src/protocol.rs`. -/
inductive RequestType where
  | Have : RequestType
  | Block : RequestType
deriving DecidableEq, Repr

/-- `struct BitswapRequest` of `src/protocol.rs`; the cid is carried in
its canonical binary form. -/
structure BitswapRequest where
  ty : RequestType
  cid : List Nat
deriving DecidableEq, Repr

/-- Modelled from the spec: `BitswapResponse` lies past the end of the
provided `src/protocol.rs`; §4.1 gives its two variants `Have(bool)` and
`Block(bytes)`. -/
inductive BitswapResponse where
  | Have : Bool → BitswapResponse
  | Block : List Nat → BitswapResponse
deriving DecidableEq, Repr

/-- Modelled from the spec: the `unsigned-varint` length prefix of §4.1
(an external crate): LEB128, least-significant 7-bit group first, high
bit marking continuation.  The fuel only bounds the recursion depth and
is never exhausted when it is at least `n` (each step divides by 128). -/
def varint_encode_aux : Nat → Nat → List Nat
  | 0, n => [n]
  | fuel + 1, n =>
    if n < 128 then [n]
    else (n % 128 + 128) :: varint_encode_aux fuel (n / 128)

/-- Modelled from the spec: the varint write of a length prefix. -/
def varint_encode (n : Nat) : List Nat :=
  varint_encode_aux n n

/-- Modelled from the spec: the matching varint read of the length prefix. -/
def varint_decode : List Nat → Except CodecError (Nat × List Nat)
  | [] => Except.error CodecError.UnexpectedEof
  | b :: rest =>
    if b < 128 then Except.ok (b, rest)
    else
      match varint_decode rest with
      | Except.ok (n, rest') => Except.ok (b - 128 + 128 * n, rest')
      | Except.error e => Except.error e

/-- Modelled from the spec: `BitswapRequest::write_to` lies past the end of
the provided `src/protocol.rs`; §4.1: "Request payload: `byte type ||
cid-bytes`, where `type ∈ {0=Have, 1=Block}`". -/
def BitswapRequest.write_to (r : BitswapRequest) : List Nat :=
  (match r.ty with
   | RequestType.Have => 0
   | RequestType.Block => 1) :: r.cid

/-- Modelled from the spec: `BitswapRequest::from_bytes` lies past the end
of the provided `src/protocol.rs`; inverse of the payload format of §4.1,
any other leading byte being invalid. -/
def BitswapRequest.from_bytes : List Nat → Except CodecError BitswapRequest
  | t :: cid =>
    if t = 0 then Except.ok ⟨RequestType.Have, cid⟩
    else if t = 1 then Except.ok ⟨RequestType.Block, cid⟩
    else Except.error CodecError.InvalidMessage
  | [] => Except.error CodecError.InvalidMessage

/-- Modelled from the spec: `BitswapResponse::write_to`; §4.1: "Response
payload: `byte kind || body`, where `kind=0` introduces `Have(bool)`
(body = 1 byte, 0 or 1) and `kind=1` introduces `Block(bytes)` (body =
raw bytes, length implied by frame length)". -/
def BitswapResponse.write_to : BitswapResponse → List Nat
  | BitswapResponse.Have b => [0, if b then 1 else 0]
  | BitswapResponse.Block data => 1 :: data

/-- Modelled from the spec: `BitswapResponse::from_bytes`, inverse of the
response payload format of §4.1 (the `Have` body is one byte, 0 or 1). -/
def BitswapResponse.from_bytes : List Nat → Except CodecError BitswapResponse
  | t :: body =>
    if t = 0 then
      match body with
      | [b] =>
        if b = 0 then Except.ok (BitswapResponse.Have false)
        else if b = 1 then Except.ok (BitswapResponse.Have true)
        else Except.error CodecError.InvalidMessage
      | _ => Except.error CodecError.InvalidMessage
    else if t = 1 then Except.ok (BitswapResponse.Block body)
    else Except.error CodecError.InvalidMessage
  | [] => Except.error CodecError.InvalidMessage

namespace BitswapCodec

/-- `BitswapCodec::read_request` (`src/protocol.rs:48`): read the varint
length, reject a declared length above `MAX_CID_SIZE + 1` as
`MessageTooLarge`, read exactly that many bytes and parse them. -/
def read_request (input : List Nat) : Except CodecError BitswapRequest :=
  match varint_decode input with
  | Except.error e => Except.error e
  | Except.ok (msg_len, rest) =>
    if msg_len > MAX_CID_SIZE + 1 then Except.error (CodecError.MessageTooLarge msg_len)
    else if rest.length < msg_len then Except.error CodecError.UnexpectedEof
    else BitswapRequest.from_bytes (rest.take msg_len)

/-- `BitswapCodec::read_response` (`src/protocol.rs:65`): as
`read_request` with the `P::MAX_BLOCK_SIZE + 1` bound. -/
def read_response (max_block_size : Nat) (input : List Nat) :
    Except CodecError BitswapResponse :=
  match varint_decode input with
  | Except.error e => Except.error e
  | Except.ok (msg_len, rest) =>
    if msg_len > max_block_size + 1 then Except.error (CodecError.MessageTooLarge msg_len)
    else if rest.length < msg_len then Except.error CodecError.UnexpectedEof
    else BitswapResponse.from_bytes (rest.take msg_len)

/-- `BitswapCodec::write_request` (`src/protocol.rs:86`): serialise the
payload, reject oversize, emit the varint length prefix then the payload. -/
def write_request (req : BitswapRequest) : Except CodecError (List Nat) :=
  let buffer := req.write_to
  if buffer.length > MAX_CID_SIZE + 1 then
    Except.error (CodecError.MessageTooLarge buffer.length)
  else Except.ok (varint_encode buffer.length ++ buffer)

/-- `BitswapCodec::write_response` (`src/protocol.rs:107`). -/
def write_response (max_block_size : Nat) (res : BitswapResponse) :
    Except CodecError (List Nat) :=
  let buffer := res.write_to
  if buffer.length > max_block_size + 1 then
    Except.error (CodecError.MessageTooLarge buffer.length)
  else Except.ok (varint_encode buffer.length ++ buffer)

end BitswapCodec

/-! ### Behaviour orchestrator (`src/behaviour.rs`)

Only the state that claim C9 is about is carried: the
transport-request-id association, the store-worker request channel (a
list in send order) and the two received-bytes counters.  The `compat`
variants keep their place in `BitswapId`. -/

/-- `enum BitswapId` of `src/behaviour.rs`. -/
inductive BitswapId where
  | Bitswap : Nat → BitswapId
  | Compat : Cid → BitswapId
deriving DecidableEq, Repr

/-- The store-worker requests of `enum DbRequest` that `inject_response`
can send; the `Bitswap(channel, request)` variant carries a transport
channel and plays no part in the claims. -/
inductive DbRequest where
  | Insert : Cid → List Nat → DbRequest
  | MissingBlocks : QueryId → Cid → DbRequest
deriving DecidableEq, Repr

/-- Lookup in the `requests` map of `Bitswap`. -/
def lookupReq : List (BitswapId × QueryId) → BitswapId → Option QueryId
  | [], _ => none
  | p :: l, id => if p.1 = id then some p.2 else lookupReq l id

/-- `HashMap::remove` on the `requests` map. -/
def eraseReq (l : List (BitswapId × QueryId)) (id : BitswapId) :
    List (BitswapId × QueryId) :=
  l.filter (fun p => p.1 ≠ id)

/-- The claim-relevant state of `struct Bitswap<P>` (`src/behaviour.rs:108`):
`received_block_bytes` and `received_invalid_block_bytes` are the
`RECEIVED_BLOCK_BYTES` / `RECEIVED_INVALID_BLOCK_BYTES` counters. -/
structure Bitswap where
  query_manager : QueryManager
  requests : List (BitswapId × QueryId)
  db_tx : List DbRequest
  received_block_bytes : Nat
  received_invalid_block_bytes : Nat
deriving DecidableEq, Repr

/-! ### Statement-side helper definitions -/

/-- Whether a query event is a `Complete` event. -/
def isComplete : QueryEvent → Bool
  | QueryEvent.Complete _ _ => true
  | _ => false

/-- Repeatedly call `QueryManager.next` (fuelled by the queue length):
the list of events the caller observes when draining the manager. -/
def drainAux : Nat → QueryManager → List QueryEvent
  | 0, _ => []
  | fuel + 1, m =>
    match m.next with
    | none => []
    | some (e, m') => e :: drainAux fuel m'

/-- All events delivered by draining `next` to exhaustion. -/
def drainEvents (m : QueryManager) : List QueryEvent :=
  drainAux m.events.length m

/-- The `Request` events of the have probes a `get` issues: one per
remaining provider, in iterator order, with consecutive ids. -/
def haveEvents (cid : Cid) : Nat → List PeerId → List QueryEvent
  | _, [] => []
  | start, p :: ps => QueryEvent.Request start (Request.Have p cid) :: haveEvents cid (start + 1) ps

/-- Spec invariant 2 for one record: a `get` composite holding a
non-empty `providers` list has a `block` sub-query in flight. -/
def queryInvB (q : Query) : Bool :=
  match q.state with
  | State.Get s => s.providers.isEmpty || s.block.isSome
  | _ => true

/-- Spec invariant 2 over a live-queries map. -/
def getInvL (l : List (QueryId × Query)) : Prop :=
  ∀ p ∈ l, queryInvB p.2 = true

/-- Spec invariant 2 over a manager state. -/
def getInv (m : QueryManager) : Prop :=
  getInvL m.queries

/-- Well-formedness of id allocation: every live key is below the
counter (spec invariant 7 gives monotone, never-reused ids). -/
def keysBelow (m : QueryManager) : Prop :=
  ∀ p ∈ m.queries, p.1 < m.id_counter

/-- The validity bound of spec §8 on a response payload: a block body
must not exceed `MAX_BLOCK_SIZE`. -/
def response_payload_ok (max_block_size : Nat) : BitswapResponse → Prop
  | BitswapResponse.Have _ => True
  | BitswapResponse.Block data => data.length ≤ max_block_size

/-- `Bitswap::inject_response` (`src/behaviour.rs:277`).  `Block::new(cid,
bytes)` of libipld succeeds exactly when the bytes hash, under the cid's
multihash code, back to the cid; the validation is therefore parametrised
by the hash function. -/
def Bitswap.inject_response (hash : List Nat → Cid) (b : Bitswap) (id : BitswapId)
    (peer : PeerId) (response : BitswapResponse) : Option Bitswap :=
  match lookupReq b.requests id with
  | none => some b
  | some qid =>
    let b1 : Bitswap := { b with requests := eraseReq b.requests id }
    match response with
    | BitswapResponse.Have h =>
      (b1.query_manager.inject_response qid (Response.Have peer h)).map
        (fun qm => { b1 with query_manager := qm })
    | BitswapResponse.Block data =>
      match b1.query_manager.query_info qid with
      | none => some b1
      | some info =>
        let len := data.length
        if hash data = info.cid then
          (b1.query_manager.inject_response qid (Response.Block peer true)).map
            (fun qm =>
              { b1 with
                  query_manager := qm
                  received_block_bytes := b1.received_block_bytes + len
                  db_tx := b1.db_tx ++ [DbRequest.Insert info.cid data] })
        else
          (b1.query_manager.inject_response qid (Response.Block peer false)).map
            (fun qm =>
              { b1 with
                  query_manager := qm
                  received_invalid_block_bytes := b1.received_invalid_block_bytes + len })


/-! ## Theorems

First, library lemmas about the association-list map and the invariant,
shared by several claims. -/

theorem findQ_append (a b : List (QueryId × Query)) (id : QueryId) :
    findQ (a ++ b) id =
      (match findQ a id with
       | some q => some q
       | none => findQ b id) := by
  induction a with
  | nil => simp [findQ]
  | cons p l ih =>
    by_cases h : p.1 = id
    · simp [findQ, h]
    · simp [findQ, h, ih]

theorem findQ_eraseQ_self (l : List (QueryId × Query)) (id : QueryId) :
    findQ (eraseQ l id) id = none := by
  induction l with
  | nil => rfl
  | cons p l ih =>
    by_cases h : p.1 = id
    · simpa [eraseQ, List.filter_cons, h] using ih
    · simpa [eraseQ, List.filter_cons, h, findQ] using ih

theorem findQ_eraseQ_ne (l : List (QueryId × Query)) (id id' : QueryId) (h : id' ≠ id) :
    findQ (eraseQ l id) id' = findQ l id' := by
  induction l with
  | nil => rfl
  | cons p l ih =>
    by_cases hp : p.1 = id
    · simp [eraseQ, List.filter_cons, hp, findQ, Ne.symm h] at ih ⊢
      exact ih
    · by_cases hp' : p.1 = id'
      · simp [eraseQ, List.filter_cons, hp, findQ, hp', h]
      · simp [eraseQ, List.filter_cons, hp, findQ, hp'] at ih ⊢
        exact ih

theorem findQ_insertQ_self (l : List (QueryId × Query)) (id : QueryId) (q : Query) :
    findQ (insertQ l id q) id = some q := by
  simp [insertQ, findQ_append, findQ_eraseQ_self, findQ]

theorem findQ_insertQ_ne (l : List (QueryId × Query)) (id id' : QueryId) (q : Query)
    (h : id' ≠ id) : findQ (insertQ l id q) id' = findQ l id' := by
  rw [insertQ, findQ_append, findQ_eraseQ_ne l id id' h]
  cases hf : findQ l id' with
  | none => simp [findQ, Ne.symm h]
  | some q' => simp

theorem mem_of_findQ (l : List (QueryId × Query)) (id : QueryId) (q : Query)
    (h : findQ l id = some q) : (id, q) ∈ l := by
  induction l with
  | nil => simp [findQ] at h
  | cons p l ih =>
    by_cases hp : p.1 = id
    · simp [findQ, hp] at h
      have hpq : p = (id, q) := by
        cases p
        simp_all
      rw [← hpq]
      exact List.mem_cons_self _ _
    · simp [findQ, hp] at h
      exact List.mem_cons_of_mem _ (ih h)

theorem findQ_eq_none_of_forall (l : List (QueryId × Query)) (id : QueryId)
    (h : ∀ p ∈ l, p.1 ≠ id) : findQ l id = none := by
  induction l with
  | nil => rfl
  | cons p l ih =>
    have h1 := h p (by simp)
    simp [findQ, h1]
    exact ih (fun p hp => h p (by simp [hp]))

theorem findQ_foldl_eraseQ_none (ids : List QueryId) (l : List (QueryId × Query))
    (x : QueryId) (h : findQ l x = none) :
    findQ (ids.foldl (fun qs id => eraseQ qs id) l) x = none := by
  induction ids generalizing l with
  | nil => exact h
  | cons i ids ih =>
    apply ih
    by_cases hx : x = i
    · subst hx; exact findQ_eraseQ_self l x
    · rw [findQ_eraseQ_ne l i x hx]; exact h

theorem findQ_foldl_eraseQ_mem (ids : List QueryId) (l : List (QueryId × Query))
    (x : QueryId) (h : x ∈ ids) :
    findQ (ids.foldl (fun qs id => eraseQ qs id) l) x = none := by
  induction ids generalizing l with
  | nil => simp at h
  | cons i ids ih =>
    by_cases hx : x ∈ ids
    · exact ih (eraseQ l i) hx
    · have : x = i := by simp at h; tauto
      subst this
      exact findQ_foldl_eraseQ_none ids (eraseQ l x) x (findQ_eraseQ_self l x)

theorem getInvL_eraseQ (l : List (QueryId × Query)) (id : QueryId) (h : getInvL l) :
    getInvL (eraseQ l id) := by
  intro p hp
  exact h p (List.mem_of_mem_filter hp)

theorem getInvL_insertQ (l : List (QueryId × Query)) (id : QueryId) (q : Query)
    (h : getInvL l) (hq : queryInvB q = true) : getInvL (insertQ l id q) := by
  intro p hp
  rcases List.mem_append.1 hp with h1 | h2
  · exact h p (List.mem_of_mem_filter h1)
  · simp at h2
    subst h2
    exact hq

theorem getInvL_foldl_eraseQ (ids : List QueryId) (l : List (QueryId × Query))
    (h : getInvL l) : getInvL (ids.foldl (fun qs id => eraseQ qs id) l) := by
  induction ids generalizing l with
  | nil => exact h
  | cons i ids ih => exact ih (eraseQ l i) (getInvL_eraseQ l i h)

/-- C4, counterexample: on the manager produced by `get(None, 7, [peer 1])`
(live map: block leaf `1` rooted at `0`, composite `0`), `cancel 0`
returns `true` yet the leaf record `1` — a descendant of the cancelled
tree, its `root` field being `0` — is still in the live-queries map. -/
theorem claim4_counterexample :
    (QueryManager.get ⟨0, [], []⟩ none 7 [1]).map
      (fun r => ((r.1.cancel 0).2, findQ (r.1.cancel 0).1.queries 1)) =
    some (true, some ⟨⟨1, 0, some 0, 7, "block"⟩, State.None⟩) := by rfl

/-- C4 (amended): when `cancel(root)` returns `true` the root's own record
is removed from the live-queries map, and for a sync root the records of
its direct child get sub-queries (the `missing` set) are removed as well;
the leaf have/block records of a get and the deeper descendants of a sync
stay in the map until their responses arrive and are discarded. -/
theorem claim4_cancel_removes_root_and_sync_missing (m m' : QueryManager) (root : QueryId)
    (h : m.cancel root = (m', true)) :
    findQ m'.queries root = none ∧
    (∀ q st, findQ m.queries root = some q → q.state = State.Sync st →
      ∀ id ∈ st.missing, findQ m'.queries id = none) := by
  cases hf : findQ m.queries root with
  | none => simp [QueryManager.cancel, hf] at h
  | some query =>
    cases hs : query.state with
    | None => simp [QueryManager.cancel, hf, hs] at h
    | Get st =>
      simp [QueryManager.cancel, hf, hs] at h
      constructor
      · rw [← h]
        exact findQ_eraseQ_self _ _
      · intro q st' hq hst
        obtain rfl : query = q := Option.some.inj hq
        exact absurd (hs.symm.trans hst) (by simp)
    | Sync st =>
      simp [QueryManager.cancel, hf, hs] at h
      constructor
      · rw [← h]
        exact findQ_foldl_eraseQ_none st.missing _ root (findQ_eraseQ_self _ _)
      · intro q st' hq hst id hid
        obtain rfl : query = q := Option.some.inj hq
        obtain rfl : st = st' := by
          have h2 := hs.symm.trans hst
          injection h2
        rw [← h]
        exact findQ_foldl_eraseQ_mem st.missing _ id hid

/-- C4 witness: the amended theorem applied to the concrete get trace of
the counterexample — the root record `0` is gone after a successful
cancel. -/
theorem claim4_witness :
    findQ ((QueryManager.mk 2
        [(1, ⟨⟨1, 0, some 0, 7, "block"⟩, State.None⟩),
         (0, ⟨⟨0, 0, none, 7, "get"⟩, State.Get ⟨[], some 1, []⟩⟩)]
        [QueryEvent.Request 1 (Request.Block 1 7)]).cancel 0).1.queries 0 = none :=
  (claim4_cancel_removes_root_and_sync_missing
    (QueryManager.mk 2
        [(1, ⟨⟨1, 0, some 0, 7, "block"⟩, State.None⟩),
         (0, ⟨⟨0, 0, none, 7, "get"⟩, State.Get ⟨[], some 1, []⟩⟩)]
        [QueryEvent.Request 1 (Request.Block 1 7)]) _ 0 rfl).1

theorem insertId_ne_nil (l : List QueryId) (id : QueryId) : insertId l id ≠ [] := by
  unfold insertId
  split
  · intro hl
    subst hl
    simp_all
  · simp

theorem recv_missing_blocks_loop_ne_nil (root : QueryId) (providers : List PeerId)
    (cs : List Cid) (m m2 : QueryManager) (acc ids : List QueryId)
    (h : QueryManager.recv_missing_blocks_loop root providers m acc cs = some (m2, ids))
    (hne : acc ≠ [] ∨ cs ≠ []) : ids ≠ [] := by
  induction cs generalizing m acc with
  | nil =>
    simp [QueryManager.recv_missing_blocks_loop] at h
    rcases hne with h1 | h1
    · rw [← h.2]; exact h1
    · exact absurd rfl h1
  | cons c cs ih =>
    rw [QueryManager.recv_missing_blocks_loop] at h
    cases hg : QueryManager.get m (some root) c providers with
    | none => rw [hg] at h; cases h
    | some r =>
      rw [hg] at h
      exact ih r.1 (insertId acc r.2) h (Or.inl (insertId_ne_nil _ _))

/-- C6, counterexample: start `sync(9, [peer 5], missing=[7, 8])` (two get
sub-queries, ids 1 and 3, their block leaves 2 and 4), let the block for
cid 7 arrive (spawning the missing-blocks probe 5), then answer probe 5
with the empty list.  The received list was empty — claim C6 says no
`Progress` event may be emitted — yet the manager enqueues
`Progress(0, 1)`, because the other get sub-query (id 3) is still
outstanding. -/
theorem claim6_counterexample :
    (((QueryManager.sync ⟨0, [], []⟩ 9 [5] [7, 8]).bind
        (fun r => r.1.inject_response 2 (Response.Block 5 true))).map
      (fun m => m.events) =
      some [QueryEvent.Request 2 (Request.Block 5 7),
            QueryEvent.Request 4 (Request.Block 5 8),
            QueryEvent.Request 5 (Request.MissingBlocks 7)]) ∧
    ((((QueryManager.sync ⟨0, [], []⟩ 9 [5] [7, 8]).bind
        (fun r => r.1.inject_response 2 (Response.Block 5 true))).bind
      (fun m => m.inject_response 5 (Response.MissingBlocks []))).map
      (fun m => m.events) =
      some [QueryEvent.Request 2 (Request.Block 5 7),
            QueryEvent.Request 4 (Request.Block 5 8),
            QueryEvent.Request 5 (Request.MissingBlocks 7),
            QueryEvent.Progress 0 1]) := by
  constructor
  · rfl
  · rfl

/-- C6 (amended): for a sync composite receiving a `MissingBlocks(list)`
response, a `Progress(root, n)` event is enqueued iff the sync's `missing`
set is non-empty after spawning the new gets, with `n` its size — so a
non-empty list always triggers `Progress`, but an empty list also
triggers it when other get sub-queries of the sync are still
outstanding; only when the post-transition `missing` set is empty (empty
list and no outstanding gets) is no `Progress` emitted. -/
theorem claim6_progress_iff_missing_nonempty (m m' : QueryManager) (query : Header)
    (pid : QueryId) (parent : Query) (st : SyncState) (missing : List Cid)
    (hp : query.parent = some pid)
    (hf : findQ m.queries pid = some parent)
    (hs : parent.state = State.Sync st)
    (h : m.recv_missing_blocks query missing = some m') :
    ∃ m2 ids,
      QueryManager.recv_missing_blocks_loop parent.hdr.root st.providers
        { m with queries := eraseQ m.queries pid } st.missing missing = some (m2, ids) ∧
      (ids ≠ [] →
        m'.events.getLast? = some (QueryEvent.Progress query.root ids.length)) ∧
      (ids = [] →
        m'.events = m.events ∨
        m'.events = m.events ++ [QueryEvent.Complete parent.hdr.root (Except.ok ())]) := by
  simp only [QueryManager.recv_missing_blocks, hp, hf, hs] at h
  cases hloop : QueryManager.recv_missing_blocks_loop parent.hdr.root st.providers
      { m with queries := eraseQ m.queries pid } st.missing missing with
  | none =>
    rw [hloop] at h
    cases h
  | some r =>
    rw [hloop] at h
    refine ⟨r.1, r.2, rfl, ?_, ?_⟩
    · intro hne
      have hnum : ¬ r.2.length = 0 := by
        simpa using hne
      have hcond : ¬ (r.2 = [] ∧ removeId st.children query.id = []) := by
        intro hc
        exact hne hc.1
      simp only [hcond, if_false, hnum, if_true, ite_not] at h
      have h2 := Option.some.inj h
      subst h2
      simp [List.getLast?_concat]
    · intro hnil
      have hem : st.missing = [] ∧ missing = [] := by
        by_contra hor
        rcases Decidable.not_and_iff_or_not.1 hor with h1 | h1
        · exact recv_missing_blocks_loop_ne_nil _ _ _ _ _ _ _ hloop (Or.inl h1) hnil
        · exact recv_missing_blocks_loop_ne_nil _ _ _ _ _ _ _ hloop (Or.inr h1) hnil
      have hr : r = ({ m with queries := eraseQ m.queries pid }, st.missing) := by
        rw [hem.1, hem.2] at hloop
        rw [QueryManager.recv_missing_blocks_loop] at hloop
        rw [hem.1]
        exact (Option.some.inj hloop).symm
      simp only [hnil] at h
      by_cases hc : removeId st.children query.id = []
      · right
        simp [hc] at h
        subst h
        simp [QueryManager.recv_sync, hr]
      · left
        simp [hc] at h
        subst h
        simp [hr]

/-- C6 witness: the amended theorem applied to a sync composite `0` holding
one outstanding get (`3`) and the probe `5`, answered with the empty
list: the loop leaves `missing = [3]`, and `Progress(0, 1)` is appended. -/
theorem claim6_witness :
    ∃ m2 ids,
      QueryManager.recv_missing_blocks_loop 0 [5] (QueryManager.mk 6 [] []) [3] [] =
        some (m2, ids) ∧
      (ids ≠ [] →
        (((QueryManager.mk 6 [(0, ⟨⟨0, 0, none, 9, "sync"⟩, State.Sync ⟨[3], [5], [5]⟩⟩)]
            []).recv_missing_blocks ⟨5, 0, some 0, 7, "missing-blocks"⟩ []).getD
          ⟨0, [], []⟩).events.getLast? = some (QueryEvent.Progress 0 ids.length)) ∧
      (ids = [] →
        (((QueryManager.mk 6 [(0, ⟨⟨0, 0, none, 9, "sync"⟩, State.Sync ⟨[3], [5], [5]⟩⟩)]
            []).recv_missing_blocks ⟨5, 0, some 0, 7, "missing-blocks"⟩ []).getD
          ⟨0, [], []⟩).events = [] ∨
        (((QueryManager.mk 6 [(0, ⟨⟨0, 0, none, 9, "sync"⟩, State.Sync ⟨[3], [5], [5]⟩⟩)]
            []).recv_missing_blocks ⟨5, 0, some 0, 7, "missing-blocks"⟩ []).getD
          ⟨0, [], []⟩).events = [] ++ [QueryEvent.Complete 0 (Except.ok ())]) :=
  claim6_progress_iff_missing_nonempty
    (QueryManager.mk 6 [(0, ⟨⟨0, 0, none, 9, "sync"⟩, State.Sync ⟨[3], [5], [5]⟩⟩)] [])
    (((QueryManager.mk 6 [(0, ⟨⟨0, 0, none, 9, "sync"⟩, State.Sync ⟨[3], [5], [5]⟩⟩)]
        []).recv_missing_blocks ⟨5, 0, some 0, 7, "missing-blocks"⟩ []).getD ⟨0, [], []⟩)
    ⟨5, 0, some 0, 7, "missing-blocks"⟩ 0
    ⟨⟨0, 0, none, 9, "sync"⟩, State.Sync ⟨[3], [5], [5]⟩⟩ ⟨[3], [5], [5]⟩ []
    rfl rfl rfl rfl

theorem varint_decode_error_eof (l : List Nat) (e : CodecError)
    (h : varint_decode l = Except.error e) : e = CodecError.UnexpectedEof := by
  induction l with
  | nil =>
    simp [varint_decode] at h
    exact h.symm
  | cons b rest ih =>
    by_cases hb : b < 128
    · simp [varint_decode, hb] at h
    · simp only [varint_decode, hb, if_neg] at h
      cases hv : varint_decode rest with
      | ok r => rw [hv] at h; simp at h
      | error e' =>
        rw [hv] at h
        simp at h
        subst h
        exact ih hv

theorem varint_round_aux (fuel : Nat) : ∀ (n : Nat), n ≤ fuel →
    ∀ (rest : List Nat),
      varint_decode (varint_encode_aux fuel n ++ rest) = Except.ok (n, rest) := by
  induction fuel with
  | zero =>
    intro n hn rest
    obtain rfl : n = 0 := by omega
    simp [varint_encode_aux, varint_decode]
  | succ fuel ih =>
    intro n hn rest
    rw [varint_encode_aux]
    by_cases h : n < 128
    · simp [h, varint_decode]
    · rw [if_neg h]
      simp only [List.cons_append]
      have h2 : ¬ (n % 128 + 128 < 128) := by omega
      have hd : n / 128 ≤ fuel := by
        have := Nat.div_lt_self (by omega : 0 < n) (by omega : 1 < 128)
        omega
      simp only [varint_decode, h2, if_neg, ih (n / 128) hd rest]
      have h3 : n % 128 + 128 - 128 + 128 * (n / 128) = n := by omega
      simp [h3]
      omega

theorem varint_round (n : Nat) (rest : List Nat) :
    varint_decode (varint_encode n ++ rest) = Except.ok (n, rest) :=
  varint_round_aux n n (Nat.le_refl n) rest

theorem request_from_bytes_ne_too_large (b : List Nat) (n : Nat) :
    BitswapRequest.from_bytes b ≠ Except.error (CodecError.MessageTooLarge n) := by
  cases b with
  | nil => simp [BitswapRequest.from_bytes]
  | cons t cid =>
    simp only [BitswapRequest.from_bytes]
    split
    · simp
    · split
      · simp
      · simp

theorem response_from_bytes_ne_too_large (b : List Nat) (n : Nat) :
    BitswapResponse.from_bytes b ≠ Except.error (CodecError.MessageTooLarge n) := by
  cases b with
  | nil => simp [BitswapResponse.from_bytes]
  | cons t body =>
    simp only [BitswapResponse.from_bytes]
    split
    · split
      · split
        · simp
        · split
          · simp
          · simp
      · simp
    · split
      · simp
      · simp

/-- C7, counterexample: `MAX_CID_SIZE` is `4 * 10 + 64 = 104`
(`src/protocol.rs:14`), so the request bound `MAX_CID_SIZE + 1` is 105
bytes, not 41 as the claim states — and a request frame with a declared
length of 42 bytes (which the claim, reading `MAX_CID_SIZE + 2 = 42`,
says is rejected) decodes successfully. -/
theorem claim7_counterexample :
    MAX_CID_SIZE + 1 ≠ 41 ∧
    BitswapCodec.read_request (varint_encode 42 ++ 0 :: List.replicate 41 0) =
      Except.ok ⟨RequestType.Have, List.replicate 41 0⟩ := by
  constructor
  · decide
  · rfl

/-- C7 (amended): the codec rejects an incoming request frame with
`MessageTooLarge` carrying the offending length exactly when the declared
payload length exceeds `MAX_CID_SIZE + 1`, which is currently 105 bytes
(so a request frame of exactly 105 bytes decodes and one of 106 bytes is
rejected); likewise a response frame is rejected exactly when its length
exceeds `MAX_BLOCK_SIZE + 1`. -/
theorem claim7_reject_iff_over_bound :
    (∀ (input : List Nat) (n : Nat),
      BitswapCodec.read_request input = Except.error (CodecError.MessageTooLarge n) ↔
        ∃ rest, varint_decode input = Except.ok (n, rest) ∧ MAX_CID_SIZE + 1 < n) ∧
    (∀ (max_block_size : Nat) (input : List Nat) (n : Nat),
      BitswapCodec.read_response max_block_size input =
          Except.error (CodecError.MessageTooLarge n) ↔
        ∃ rest, varint_decode input = Except.ok (n, rest) ∧ max_block_size + 1 < n) ∧
    MAX_CID_SIZE + 1 = 105 ∧
    BitswapCodec.read_request
        (varint_encode (MAX_CID_SIZE + 1) ++ 0 :: List.replicate MAX_CID_SIZE 0) =
      Except.ok ⟨RequestType.Have, List.replicate MAX_CID_SIZE 0⟩ ∧
    BitswapCodec.read_request
        (varint_encode (MAX_CID_SIZE + 2) ++ 0 :: List.replicate (MAX_CID_SIZE + 1) 0) =
      Except.error (CodecError.MessageTooLarge (MAX_CID_SIZE + 2)) := by
  refine ⟨?_, ?_, by decide, by rfl, by rfl⟩
  · intro input n
    cases hv : varint_decode input with
    | error e =>
      have he := varint_decode_error_eof input e hv
      subst he
      simp [BitswapCodec.read_request, hv]
    | ok r =>
      obtain ⟨len, rest⟩ := r
      simp only [BitswapCodec.read_request, hv]
      by_cases hlen : len > MAX_CID_SIZE + 1
      · rw [if_pos hlen]
        constructor
        · intro h
          obtain rfl : len = n := by simpa using h
          exact ⟨rest, rfl, hlen⟩
        · rintro ⟨rest', h1, h2⟩
          obtain ⟨rfl, rfl⟩ : len = n ∧ rest = rest' := by simpa using h1
          rfl
      · rw [if_neg hlen]
        constructor
        · intro h
          exfalso
          by_cases hr : rest.length < len
          · rw [if_pos hr] at h
            simp at h
          · rw [if_neg hr] at h
            exact request_from_bytes_ne_too_large _ n h
        · rintro ⟨rest', h1, h2⟩
          obtain ⟨rfl, rfl⟩ : len = n ∧ rest = rest' := by simpa using h1
          exact absurd h2 hlen
  · intro mbs input n
    cases hv : varint_decode input with
    | error e =>
      have he := varint_decode_error_eof input e hv
      subst he
      simp [BitswapCodec.read_response, hv]
    | ok r =>
      obtain ⟨len, rest⟩ := r
      simp only [BitswapCodec.read_response, hv]
      by_cases hlen : len > mbs + 1
      · rw [if_pos hlen]
        constructor
        · intro h
          obtain rfl : len = n := by simpa using h
          exact ⟨rest, rfl, hlen⟩
        · rintro ⟨rest', h1, h2⟩
          obtain ⟨rfl, rfl⟩ : len = n ∧ rest = rest' := by simpa using h1
          rfl
      · rw [if_neg hlen]
        constructor
        · intro h
          exfalso
          by_cases hr : rest.length < len
          · rw [if_pos hr] at h
            simp at h
          · rw [if_neg hr] at h
            exact response_from_bytes_ne_too_large _ n h
        · rintro ⟨rest', h1, h2⟩
          obtain ⟨rfl, rfl⟩ : len = n ∧ rest = rest' := by simpa using h1
          exact absurd h2 hlen

/-- C8: codec round-trip — writing a valid request (cid within
`MAX_CID_SIZE`) or a valid response (block payload within
`MAX_BLOCK_SIZE`) with the codec's write path and reading it back with
the corresponding read path yields the original message. -/
theorem claim8_roundtrip :
    (∀ req : BitswapRequest, req.cid.length ≤ MAX_CID_SIZE →
      ∃ out, BitswapCodec.write_request req = Except.ok out ∧
        BitswapCodec.read_request out = Except.ok req) ∧
    (∀ (max_block_size : Nat) (res : BitswapResponse), 1 ≤ max_block_size →
      response_payload_ok max_block_size res →
      ∃ out, BitswapCodec.write_response max_block_size res = Except.ok out ∧
        BitswapCodec.read_response max_block_size out = Except.ok res) := by
  constructor
  · intro req h
    obtain ⟨ty, cid⟩ := req
    have hlen : (BitswapRequest.write_to ⟨ty, cid⟩).length = cid.length + 1 := by
      cases ty <;> simp [BitswapRequest.write_to]
    have hw : BitswapCodec.write_request ⟨ty, cid⟩ =
        Except.ok (varint_encode (BitswapRequest.write_to ⟨ty, cid⟩).length ++
          BitswapRequest.write_to ⟨ty, cid⟩) := by
      simp only [BitswapCodec.write_request]
      rw [if_neg (by simp only [MAX_CID_SIZE] at h ⊢; omega)]
    refine ⟨_, hw, ?_⟩
    simp only [BitswapCodec.read_request, varint_round]
    rw [if_neg (by simp only [MAX_CID_SIZE] at h ⊢; omega), if_neg (by omega),
      List.take_length]
    cases ty <;> simp [BitswapRequest.write_to, BitswapRequest.from_bytes]
  · intro mbs res h1 h2
    cases res with
    | Have b =>
      have hlen : (BitswapResponse.write_to (BitswapResponse.Have b)).length = 2 := by
        simp [BitswapResponse.write_to]
      have hw : BitswapCodec.write_response mbs (BitswapResponse.Have b) =
          Except.ok (varint_encode (BitswapResponse.write_to (BitswapResponse.Have b)).length ++
            BitswapResponse.write_to (BitswapResponse.Have b)) := by
        simp only [BitswapCodec.write_response]
        rw [if_neg (by omega)]
      refine ⟨_, hw, ?_⟩
      simp only [BitswapCodec.read_response, varint_round]
      rw [if_neg (by omega), if_neg (by omega), List.take_length]
      cases b <;> simp [BitswapResponse.write_to, BitswapResponse.from_bytes]
    | Block data =>
      have h3 : data.length ≤ mbs := h2
      have hlen : (BitswapResponse.write_to (BitswapResponse.Block data)).length =
          data.length + 1 := by
        simp [BitswapResponse.write_to]
      have hw : BitswapCodec.write_response mbs (BitswapResponse.Block data) =
          Except.ok (varint_encode
              (BitswapResponse.write_to (BitswapResponse.Block data)).length ++
            BitswapResponse.write_to (BitswapResponse.Block data)) := by
        simp only [BitswapCodec.write_response]
        rw [if_neg (by omega)]
      refine ⟨_, hw, ?_⟩
      simp only [BitswapCodec.read_response, varint_round]
      rw [if_neg (by omega), if_neg (by omega), List.take_length]
      simp [BitswapResponse.write_to, BitswapResponse.from_bytes]

/-- C8 witness: the round-trip theorem applied to the concrete request
`Block([9, 9])` and the concrete response `Block([1, 2, 3])` with
`MAX_BLOCK_SIZE = 4`. -/
theorem claim8_witness :
    (∃ out, BitswapCodec.write_request ⟨RequestType.Block, [9, 9]⟩ = Except.ok out ∧
      BitswapCodec.read_request out = Except.ok ⟨RequestType.Block, [9, 9]⟩) ∧
    (∃ out, BitswapCodec.write_response 4 (BitswapResponse.Block [1, 2, 3]) = Except.ok out ∧
      BitswapCodec.read_response 4 out = Except.ok (BitswapResponse.Block [1, 2, 3])) :=
  ⟨claim8_roundtrip.1 ⟨RequestType.Block, [9, 9]⟩ (by decide),
   claim8_roundtrip.2 4 (BitswapResponse.Block [1, 2, 3]) (by decide)
     (by simp [response_payload_ok])⟩

/-- C9: for an inbound transport `Block(bytes)` response matched to a known
query: if the bytes hash to the query's cid, an `Insert` is enqueued to
the store worker, `Block(peer, true)` is injected into the query manager
and the received-block-bytes counter grows by the byte length (the
invalid counter unchanged); otherwise no insert is enqueued,
`Block(peer, false)` is injected and the received-invalid-block-bytes
counter grows by the byte length (the valid counter unchanged). -/
theorem claim9_inject_block (hash : List Nat → Cid) (b b' : Bitswap) (tid : Nat)
    (qid : QueryId) (info : Header) (peer : PeerId) (data : List Nat)
    (h1 : lookupReq b.requests (BitswapId.Bitswap tid) = some qid)
    (h2 : b.query_manager.query_info qid = some info)
    (h3 : b.inject_response hash (BitswapId.Bitswap tid) peer
            (BitswapResponse.Block data) = some b') :
    (hash data = info.cid →
      b'.db_tx = b.db_tx ++ [DbRequest.Insert info.cid data] ∧
      b'.received_block_bytes = b.received_block_bytes + data.length ∧
      b'.received_invalid_block_bytes = b.received_invalid_block_bytes ∧
      b.query_manager.inject_response qid (Response.Block peer true) =
        some b'.query_manager) ∧
    (hash data ≠ info.cid →
      b'.db_tx = b.db_tx ∧
      b'.received_invalid_block_bytes = b.received_invalid_block_bytes + data.length ∧
      b'.received_block_bytes = b.received_block_bytes ∧
      b.query_manager.inject_response qid (Response.Block peer false) =
        some b'.query_manager) := by
  simp only [Bitswap.inject_response, h1, h2] at h3
  constructor
  · intro hh
    rw [if_pos hh] at h3
    cases hq : b.query_manager.inject_response qid (Response.Block peer true) with
    | none =>
      rw [hq] at h3
      simp at h3
    | some qm =>
      rw [hq] at h3
      simp only [Option.map_some'] at h3
      have h4 := Option.some.inj h3
      subst h4
      exact ⟨rfl, rfl, rfl, rfl⟩
  · intro hh
    rw [if_neg hh] at h3
    cases hq : b.query_manager.inject_response qid (Response.Block peer false) with
    | none =>
      rw [hq] at h3
      simp at h3
    | some qm =>
      rw [hq] at h3
      simp only [Option.map_some'] at h3
      have h4 := Option.some.inj h3
      subst h4
      exact ⟨rfl, rfl, rfl, rfl⟩

/-- C9 witness: the theorem applied to a concrete behaviour state (one get
composite, its block leaf `1` mapped from transport request `5`), the
hash modelled as the byte length: the seven-byte payload hashes to cid 7,
so an `Insert` is enqueued. -/
theorem claim9_witness :
    ((Bitswap.inject_response (fun l => l.length)
        (Bitswap.mk
          (QueryManager.mk 2
            [(1, ⟨⟨1, 0, some 0, 7, "block"⟩, State.None⟩),
             (0, ⟨⟨0, 0, none, 7, "get"⟩, State.Get ⟨[], some 1, []⟩⟩)]
            [QueryEvent.Request 1 (Request.Block 1 7)])
          [(BitswapId.Bitswap 5, 1)] [] 0 0)
        (BitswapId.Bitswap 5) 9 (BitswapResponse.Block [7, 7, 7, 7, 7, 7, 7])).getD
      ⟨⟨0, [], []⟩, [], [], 0, 0⟩).db_tx = [DbRequest.Insert 7 [7, 7, 7, 7, 7, 7, 7]] := by
  have h := claim9_inject_block (fun l => l.length)
    (Bitswap.mk
      (QueryManager.mk 2
        [(1, ⟨⟨1, 0, some 0, 7, "block"⟩, State.None⟩),
         (0, ⟨⟨0, 0, none, 7, "get"⟩, State.Get ⟨[], some 1, []⟩⟩)]
        [QueryEvent.Request 1 (Request.Block 1 7)])
      [(BitswapId.Bitswap 5, 1)] [] 0 0)
    ((Bitswap.inject_response (fun l => l.length)
        (Bitswap.mk
          (QueryManager.mk 2
            [(1, ⟨⟨1, 0, some 0, 7, "block"⟩, State.None⟩),
             (0, ⟨⟨0, 0, none, 7, "get"⟩, State.Get ⟨[], some 1, []⟩⟩)]
            [QueryEvent.Request 1 (Request.Block 1 7)])
          [(BitswapId.Bitswap 5, 1)] [] 0 0)
        (BitswapId.Bitswap 5) 9 (BitswapResponse.Block [7, 7, 7, 7, 7, 7, 7])).getD
      ⟨⟨0, [], []⟩, [], [], 0, 0⟩)
    5 1 ⟨1, 0, some 0, 7, "block"⟩ 9 [7, 7, 7, 7, 7, 7, 7] rfl rfl rfl
  simpa using (h.1 rfl).1

theorem get_loop_some (root idq : QueryId) (cid : Cid) (b : QueryId) :
    ∀ (ps : List PeerId) (m : QueryManager) (s : GetState), s.block = some b →
      (QueryManager.get_loop root idq cid m s ps).1.events =
          m.events ++ haveEvents cid m.id_counter ps ∧
      (QueryManager.get_loop root idq cid m s ps).1.id_counter = m.id_counter + ps.length ∧
      (QueryManager.get_loop root idq cid m s ps).2.block = some b ∧
      (QueryManager.get_loop root idq cid m s ps).2.providers = s.providers := by
  intro ps
  induction ps with
  | nil =>
    intro m s hs
    simp [QueryManager.get_loop, haveEvents, hs]
  | cons p ps ih =>
    intro m s hs
    rw [QueryManager.get_loop]
    rw [if_neg (by simp [hs])]
    obtain ⟨h1, h2, h3, h4⟩ := ih (m.have' root idq p cid).1
      { s with have' := insertId s.have' (m.have' root idq p cid).2 } (by simpa using hs)
    refine ⟨?_, ?_, h3, by simpa using h4⟩
    · rw [h1]
      simp [QueryManager.have', QueryManager.start_query, haveEvents]
    · rw [h2]
      simp [QueryManager.have', QueryManager.start_query]
      omega

/-- C1: a `get` with a non-empty providers iterator returns the fresh id
`id_counter`, issues exactly one `block` sub-query to the first provider
followed by one `have` sub-query per remaining provider in iterator
order, and records a composite whose fallback `providers` list is empty;
a `get` with an empty iterator panics (modelled as `none`), and only
then. -/
theorem claim1_get_spec (m : QueryManager) (parent : Option QueryId) (cid : Cid) :
    QueryManager.get m parent cid [] = none ∧
    (∀ (p : PeerId) (ps : List PeerId), keysBelow m →
      ∃ m', QueryManager.get m parent cid (p :: ps) = some (m', m.id_counter) ∧
        findQ m.queries m.id_counter = none ∧
        m'.events = m.events ++
          QueryEvent.Request (m.id_counter + 1) (Request.Block p cid) ::
            haveEvents cid (m.id_counter + 2) ps ∧
        ∃ s : GetState,
          findQ m'.queries m.id_counter =
            some ⟨⟨m.id_counter, parent.getD m.id_counter, parent, cid, "get"⟩,
              State.Get s⟩ ∧
          s.providers = [] ∧ s.block = some (m.id_counter + 1)) := by
  constructor
  · simp [QueryManager.get, QueryManager.get_loop]
  · intro p ps hkb
    have hfresh : findQ m.queries m.id_counter = none := by
      apply findQ_eq_none_of_forall
      intro q hq
      exact Nat.ne_of_lt (hkb q hq)
    have hstep : QueryManager.get_loop (parent.getD m.id_counter) m.id_counter cid
        (QueryManager.mk (m.id_counter + 1) m.queries m.events) ⟨[], none, []⟩ (p :: ps) =
        QueryManager.get_loop (parent.getD m.id_counter) m.id_counter cid
          (QueryManager.mk (m.id_counter + 2)
            (insertQ m.queries (m.id_counter + 1)
              ⟨⟨m.id_counter + 1, parent.getD m.id_counter, some m.id_counter, cid, "block"⟩,
                State.None⟩)
            (m.events ++ [QueryEvent.Request (m.id_counter + 1) (Request.Block p cid)]))
          ⟨[], some (m.id_counter + 1), []⟩ ps := by
      rfl
    obtain ⟨h1, h2, h3, h4⟩ := get_loop_some (parent.getD m.id_counter) m.id_counter cid
      (m.id_counter + 1) ps
      (QueryManager.mk (m.id_counter + 2)
        (insertQ m.queries (m.id_counter + 1)
          ⟨⟨m.id_counter + 1, parent.getD m.id_counter, some m.id_counter, cid, "block"⟩,
            State.None⟩)
        (m.events ++ [QueryEvent.Request (m.id_counter + 1) (Request.Block p cid)]))
      ⟨[], some (m.id_counter + 1), []⟩ rfl
    set L := QueryManager.get_loop (parent.getD m.id_counter) m.id_counter cid
      (QueryManager.mk (m.id_counter + 2)
        (insertQ m.queries (m.id_counter + 1)
          ⟨⟨m.id_counter + 1, parent.getD m.id_counter, some m.id_counter, cid, "block"⟩,
            State.None⟩)
        (m.events ++ [QueryEvent.Request (m.id_counter + 1) (Request.Block p cid)]))
      ⟨[], some (m.id_counter + 1), []⟩ ps with hL
    refine ⟨{ L.1 with queries := (insertQ L.1.queries m.id_counter
        ⟨⟨m.id_counter, parent.getD m.id_counter, parent, cid, "get"⟩, State.Get L.2⟩) },
      ?_, hfresh, ?_, ?_⟩
    · simp only [QueryManager.get, hstep]
      rw [if_neg (by rw [h3]; simp)]
    · show L.1.events = _
      rw [h1]
      simp
    · exact ⟨L.2, findQ_insertQ_self _ _ _, by simpa using h4, h3⟩

/-- C1 witness: the theorem applied to the empty manager,
`get(None, 7, [3, 4])` — one block request to peer 3, one have request to
peer 4, fresh id 0, empty fallback providers list. -/
theorem claim1_witness :
    ∃ m', QueryManager.get ⟨0, [], []⟩ none 7 [3, 4] = some (m', 0) ∧
      findQ ([] : List (QueryId × Query)) 0 = none ∧
      m'.events = [] ++ QueryEvent.Request 1 (Request.Block 3 7) :: haveEvents 7 2 [4] ∧
      ∃ s : GetState,
        findQ m'.queries 0 = some ⟨⟨0, 0, none, 7, "get"⟩, State.Get s⟩ ∧
        s.providers = [] ∧ s.block = some 1 :=
  (claim1_get_spec ⟨0, [], []⟩ none 7).2 3 [4] (by simp [keysBelow])

theorem recv_have_final_check (query : Header) (pr : QueryManager × GetState)
    (m2 : QueryManager) (tr : Transition GetState (Except Cid Unit))
    (h : (if pr.2.have' = [] ∧ pr.2.block = none ∧ pr.2.providers = [] then
            if pr.2.providers = [] then
              some (pr.1, Transition.Complete (Except.error query.cid))
            else some (pr.1, Transition.Complete (Except.ok ()))
          else some (pr.1, Transition.Next pr.2)) = some (m2, tr)) :
    (∃ st', tr = Transition.Next st' ∧
        ¬ (st'.have' = [] ∧ st'.block = none ∧ st'.providers = [])) ∨
      tr = Transition.Complete (Except.error query.cid) := by
  split at h
  case isTrue hc =>
    split at h
    case isTrue =>
      injection Option.some.inj h with h1 h2
      subst h2
      right
      rfl
    case isFalse h2 => exact absurd hc.2.2 h2
  case isFalse hc =>
    injection Option.some.inj h with h1 h2
    subst h2
    left
    exact ⟨pr.2, rfl, hc⟩

/-- C3: the transition closure of `recv_have` (shared by `Have(false)` and
`Block(false)` responses) either steps on with a state in which probes,
block slot and providers are not all empty, or completes with
`Err(cid)` — it never completes with `Ok`; a successful `Block` response's
closure always completes with `Ok(())` immediately, so the exhaustion
branch is reached only without a successful block. -/
theorem claim3_exhaustion_err :
    (∀ (query : Header) (peer : PeerId) (have_flag : Bool) (mgr : QueryManager)
        (parent : Header) (st : GetState) (m2 : QueryManager)
        (tr : Transition GetState (Except Cid Unit)),
      QueryManager.recv_have_step query peer have_flag mgr parent st = some (m2, tr) →
      ((∃ st', tr = Transition.Next st' ∧
          ¬ (st'.have' = [] ∧ st'.block = none ∧ st'.providers = [])) ∨
        tr = Transition.Complete (Except.error query.cid))) ∧
    (∀ (peer : PeerId) (mgr : QueryManager) (parent : Header) (st : GetState),
      QueryManager.recv_block_step peer mgr parent st =
        some (mgr, Transition.Complete (Except.ok ()))) := by
  constructor
  · intro query peer hf mgr parent st m2 tr h
    simp only [QueryManager.recv_have_step] at h
    exact recv_have_final_check query _ m2 tr h
  · intro peer mgr parent st
    rfl

/-- C3 witness: the theorem applied to a concrete have probe — the last
outstanding probe of a get answers `Have(false)` with no block slot and
no fallback providers, and the transition completes with
`Err(7)`, the requested cid; and the block-success closure completes
with `Ok(())`. -/
theorem claim3_witness :
    ((∃ st' : GetState,
        (Transition.Complete (Except.error 7) : Transition GetState (Except Cid Unit)) =
          Transition.Next st' ∧
        ¬ (st'.have' = [] ∧ st'.block = none ∧ st'.providers = [])) ∨
      (Transition.Complete (Except.error 7) : Transition GetState (Except Cid Unit)) =
        Transition.Complete (Except.error 7)) ∧
    QueryManager.recv_block_step 2 ⟨0, [], []⟩ ⟨0, 0, none, 7, "get"⟩ ⟨[1], none, []⟩ =
      some (⟨0, [], []⟩, Transition.Complete (Except.ok ())) :=
  ⟨claim3_exhaustion_err.1 ⟨1, 0, some 0, 7, "have"⟩ 2 false ⟨0, [], []⟩
      ⟨0, 0, none, 7, "get"⟩ ⟨[1], none, []⟩ ⟨0, [], []⟩
      (Transition.Complete (Except.error 7)) rfl,
    claim3_exhaustion_err.2 2 ⟨0, [], []⟩ ⟨0, 0, none, 7, "get"⟩ ⟨[1], none, []⟩⟩

theorem drainAux_eq : ∀ (es : List QueryEvent) (fuel : Nat) (m : QueryManager),
    m.events = es → es.length ≤ fuel → drainAux fuel m = es := by
  intro es
  induction es with
  | nil =>
    intro fuel m hm _
    cases fuel <;> simp [drainAux, QueryManager.next, hm]
  | cons e es ih =>
    intro fuel m hm hlen
    cases fuel with
    | zero => simp at hlen
    | succ fuel =>
      simp only [drainAux, QueryManager.next, hm]
      exact congrArg (e :: ·) (ih fuel { m with events := es } rfl (by simpa using hlen))

theorem drainEvents_eq (m : QueryManager) : drainEvents m = m.events :=
  drainAux_eq m.events m.events.length m rfl (Nat.le_refl _)

theorem filter_keeps_completes (es : List QueryEvent) (p : QueryEvent → Bool)
    (hp : ∀ e, isComplete e = true → p e = true) :
    (es.filter p).filter isComplete = es.filter isComplete := by
  induction es with
  | nil => rfl
  | cons e es ih =>
    by_cases hc : isComplete e = true
    · have hpe := hp e hc
      simp [List.filter_cons, hpe, hc, ih]
    · by_cases hpe : p e = true
      · simp [List.filter_cons, hpe, hc, ih]
      · simp [List.filter_cons, hpe, hc, ih]

/-- C5: a successful `cancel(root)` drops from the pending event queue
every `Request` event whose id belongs to the cancelled tree and every
`Progress` event for that root, while every already-queued `Complete`
event is retained and still delivered by `next()` (draining yields the
same `Complete` events as before the cancel).  The hypothesis `hroot`
records that no `Request` event bears the root's own id (composites
never carry `Request` events). -/
theorem claim5_cancel_event_retention (m m' : QueryManager) (root : QueryId)
    (h : m.cancel root = (m', true))
    (hroot : ∀ req : Request, QueryEvent.Request root req ∉ m.events) :
    ((drainEvents m').filter isComplete = (drainEvents m).filter isComplete) ∧
    (∀ (id : QueryId) (req : Request) (q : Query),
      QueryEvent.Request id req ∈ m'.events → findQ m.queries id = some q →
      q.hdr.root ≠ root) ∧
    (∀ n, QueryEvent.Progress root n ∉ m'.events) := by
  cases hf : findQ m.queries root with
  | none => simp [QueryManager.cancel, hf] at h
  | some query =>
    have hev : m'.events = m.events.filter (QueryManager.cancelRetain (eraseQ m.queries root) root) := by
      cases hs : query.state with
      | None => simp [QueryManager.cancel, hf, hs] at h
      | Get st =>
        simp [QueryManager.cancel, hf, hs] at h
        rw [← h]
      | Sync st =>
        simp [QueryManager.cancel, hf, hs] at h
        rw [← h]
    refine ⟨?_, ?_, ?_⟩
    · rw [drainEvents_eq, drainEvents_eq, hev]
      apply filter_keeps_completes
      intro e he
      cases e <;> simp_all [isComplete, QueryManager.cancelRetain]
    · intro id req q hmem hfq hq
      rw [hev] at hmem
      have hret := List.of_mem_filter hmem
      by_cases hid : id = root
      · subst hid
        exact absurd (List.mem_of_mem_filter hmem) (hroot req)
      · simp only [QueryManager.cancelRetain, decide_eq_true_eq] at hret
        apply hret
        rw [findQ_eraseQ_ne m.queries root id hid, hfq]
        simp [hq]
    · intro n hmem
      rw [hev] at hmem
      have hret := List.of_mem_filter hmem
      simp [QueryManager.cancelRetain] at hret

/-- C5 witness: the theorem applied to a get composite `0` with its block
leaf `1`, a queued `Request` for the leaf, a queued `Progress` and a
queued `Complete` for the root: after `cancel 0` the drained `Complete`
events are unchanged, no `Request` of the tree survives, and the
`Progress` event is gone. -/
theorem claim5_witness :
    ((drainEvents ((QueryManager.mk 2
        [(1, ⟨⟨1, 0, some 0, 7, "block"⟩, State.None⟩),
         (0, ⟨⟨0, 0, none, 7, "get"⟩, State.Get ⟨[], some 1, []⟩⟩)]
        [QueryEvent.Request 1 (Request.Block 1 7), QueryEvent.Progress 0 3,
         QueryEvent.Complete 0 (Except.ok ())]).cancel 0).1).filter isComplete =
      (drainEvents (QueryManager.mk 2
        [(1, ⟨⟨1, 0, some 0, 7, "block"⟩, State.None⟩),
         (0, ⟨⟨0, 0, none, 7, "get"⟩, State.Get ⟨[], some 1, []⟩⟩)]
        [QueryEvent.Request 1 (Request.Block 1 7), QueryEvent.Progress 0 3,
         QueryEvent.Complete 0 (Except.ok ())])).filter isComplete) ∧
    (∀ (id : QueryId) (req : Request) (q : Query),
      QueryEvent.Request id req ∈ ((QueryManager.mk 2
        [(1, ⟨⟨1, 0, some 0, 7, "block"⟩, State.None⟩),
         (0, ⟨⟨0, 0, none, 7, "get"⟩, State.Get ⟨[], some 1, []⟩⟩)]
        [QueryEvent.Request 1 (Request.Block 1 7), QueryEvent.Progress 0 3,
         QueryEvent.Complete 0 (Except.ok ())]).cancel 0).1.events →
      findQ [(1, ⟨⟨1, 0, some 0, 7, "block"⟩, State.None⟩),
         (0, ⟨⟨0, 0, none, 7, "get"⟩, State.Get ⟨[], some 1, []⟩⟩)] id = some q →
      q.hdr.root ≠ 0) ∧
    (∀ n, QueryEvent.Progress 0 n ∉ ((QueryManager.mk 2
        [(1, ⟨⟨1, 0, some 0, 7, "block"⟩, State.None⟩),
         (0, ⟨⟨0, 0, none, 7, "get"⟩, State.Get ⟨[], some 1, []⟩⟩)]
        [QueryEvent.Request 1 (Request.Block 1 7), QueryEvent.Progress 0 3,
         QueryEvent.Complete 0 (Except.ok ())]).cancel 0).1.events) :=
  claim5_cancel_event_retention
    (QueryManager.mk 2
      [(1, ⟨⟨1, 0, some 0, 7, "block"⟩, State.None⟩),
       (0, ⟨⟨0, 0, none, 7, "get"⟩, State.Get ⟨[], some 1, []⟩⟩)]
      [QueryEvent.Request 1 (Request.Block 1 7), QueryEvent.Progress 0 3,
       QueryEvent.Complete 0 (Except.ok ())]) _ 0 rfl
    (by intro req hmem; simp at hmem)

/-- C10: whenever `cancel(id)` returns `false` — unknown id, or a
stateless have/block/missing-blocks leaf (`State::None`) — the manager is
left exactly as before: the live-queries map is unchanged (pointwise),
the event queue is unchanged, and the id counter is unchanged.  The
hypotheses record the reachable-state facts the claim itself cites: no
queued `Progress` event and no live record's `root` field names a leaf
id (only composites are roots). -/
theorem claim10_cancel_false_noop (m m' : QueryManager) (root : QueryId)
    (h : m.cancel root = (m', false))
    (h1 : ∀ n, QueryEvent.Progress root n ∉ m.events)
    (h2 : ∀ p ∈ m.queries, p.2.hdr.root = root → p.1 = root) :
    (∀ id, findQ m'.queries id = findQ m.queries id) ∧
    m'.events = m.events ∧ m'.id_counter = m.id_counter := by
  cases hf : findQ m.queries root with
  | none =>
    simp [QueryManager.cancel, hf] at h
    subst h
    exact ⟨fun id => rfl, rfl, rfl⟩
  | some query =>
    cases hs : query.state with
    | Get st => simp [QueryManager.cancel, hf, hs] at h
    | Sync st => simp [QueryManager.cancel, hf, hs] at h
    | None =>
      simp [QueryManager.cancel, hf, hs] at h
      have hev : m.events.filter (QueryManager.cancelRetain (eraseQ m.queries root) root) =
          m.events := by
        apply List.filter_eq_self.2
        intro e he
        cases e with
        | Request id req =>
          simp only [QueryManager.cancelRetain, decide_eq_true_eq]
          intro hcon
          by_cases hid : id = root
          · subst hid
            rw [findQ_eraseQ_self] at hcon
            simp at hcon
          · rw [findQ_eraseQ_ne _ _ _ hid] at hcon
            cases hq : findQ m.queries id with
            | none =>
              rw [hq] at hcon
              simp at hcon
            | some q =>
              rw [hq] at hcon
              simp at hcon
              exact hid (h2 (id, q) (mem_of_findQ _ _ _ hq) hcon)
        | Progress id n =>
          simp only [QueryManager.cancelRetain, decide_eq_true_eq]
          intro hcon
          subst hcon
          exact h1 n he
        | Complete id r => rfl
      subst h
      refine ⟨?_, hev, rfl⟩
      intro id
      by_cases hid : id = root
      · subst hid
        rw [findQ_insertQ_self]
        exact hf.symm
      · rw [findQ_insertQ_ne _ _ _ _ hid, findQ_eraseQ_ne _ _ _ hid]

/-- C10 witness: the theorem applied to cancelling the block leaf `1` of a
live get composite — `cancel` returns `false` and the manager is
untouched. -/
theorem claim10_witness :
    (∀ id, findQ ((QueryManager.mk 2
        [(1, ⟨⟨1, 0, some 0, 7, "block"⟩, State.None⟩),
         (0, ⟨⟨0, 0, none, 7, "get"⟩, State.Get ⟨[], some 1, []⟩⟩)]
        [QueryEvent.Request 1 (Request.Block 1 7)]).cancel 1).1.queries id =
      findQ [(1, ⟨⟨1, 0, some 0, 7, "block"⟩, State.None⟩),
         (0, ⟨⟨0, 0, none, 7, "get"⟩, State.Get ⟨[], some 1, []⟩⟩)] id) ∧
    ((QueryManager.mk 2
        [(1, ⟨⟨1, 0, some 0, 7, "block"⟩, State.None⟩),
         (0, ⟨⟨0, 0, none, 7, "get"⟩, State.Get ⟨[], some 1, []⟩⟩)]
        [QueryEvent.Request 1 (Request.Block 1 7)]).cancel 1).1.events =
      [QueryEvent.Request 1 (Request.Block 1 7)] ∧
    ((QueryManager.mk 2
        [(1, ⟨⟨1, 0, some 0, 7, "block"⟩, State.None⟩),
         (0, ⟨⟨0, 0, none, 7, "get"⟩, State.Get ⟨[], some 1, []⟩⟩)]
        [QueryEvent.Request 1 (Request.Block 1 7)]).cancel 1).1.id_counter = 2 :=
  claim10_cancel_false_noop
    (QueryManager.mk 2
      [(1, ⟨⟨1, 0, some 0, 7, "block"⟩, State.None⟩),
       (0, ⟨⟨0, 0, none, 7, "get"⟩, State.Get ⟨[], some 1, []⟩⟩)]
      [QueryEvent.Request 1 (Request.Block 1 7)]) _ 1 rfl
    (by intro n hmem; simp at hmem) (by decide)

theorem start_query_inv (m : QueryManager) (root : QueryId) (parent : Option QueryId)
    (cid : Cid) (req : Request) (label : String) (h : getInv m) :
    getInv (m.start_query root parent cid req label).1 :=
  getInvL_insertQ m.queries m.id_counter _ h rfl

theorem get_loop_inv (root idq : QueryId) (cid : Cid) :
    ∀ (ps : List PeerId) (m : QueryManager) (s : GetState), getInv m →
      getInv (QueryManager.get_loop root idq cid m s ps).1 := by
  intro ps
  induction ps with
  | nil => intro m s h; exact h
  | cons p ps ih =>
    intro m s h
    rw [QueryManager.get_loop]
    split
    · exact ih _ _ (start_query_inv m root (some idq) cid _ _ h)
    · exact ih _ _ (start_query_inv m root (some idq) cid _ _ h)

theorem get_loop_providers_any (root idq : QueryId) (cid : Cid) :
    ∀ (ps : List PeerId) (m : QueryManager) (s : GetState),
      (QueryManager.get_loop root idq cid m s ps).2.providers = s.providers := by
  intro ps
  induction ps with
  | nil => intro m s; rfl
  | cons p ps ih =>
    intro m s
    rw [QueryManager.get_loop]
    split
    · exact (ih _ _).trans rfl
    · exact (ih _ _).trans rfl

theorem get_inv (m : QueryManager) (parent : Option QueryId) (cid : Cid)
    (ps : List PeerId) (m' : QueryManager) (id : QueryId) (h : getInv m)
    (hg : QueryManager.get m parent cid ps = some (m', id)) : getInv m' := by
  simp only [QueryManager.get] at hg
  split at hg
  · cases hg
  · injection Option.some.inj hg with h1 h2
    subst h1
    apply getInvL_insertQ
    · exact get_loop_inv _ _ _ ps _ _ h
    · simp only [queryInvB, get_loop_providers_any]
      rfl

theorem sync_loop_inv (idq : QueryId) (providers : List PeerId) :
    ∀ (cs : List Cid) (m : QueryManager) (acc : List QueryId) (m2 : QueryManager)
      (ids : List QueryId), getInv m →
      QueryManager.sync_loop idq providers m acc cs = some (m2, ids) → getInv m2 := by
  intro cs
  induction cs with
  | nil =>
    intro m acc m2 ids h hs
    simp [QueryManager.sync_loop] at hs
    rw [← hs.1]
    exact h
  | cons c cs ih =>
    intro m acc m2 ids h hs
    rw [QueryManager.sync_loop] at hs
    cases hg : QueryManager.get m (some idq) c providers with
    | none => rw [hg] at hs; cases hs
    | some r =>
      rw [hg] at hs
      exact ih r.1 (insertId acc r.2) m2 ids (get_inv m (some idq) c providers r.1 r.2 h
        (by rw [hg])) hs

theorem sync_inv (m : QueryManager) (cid : Cid) (providers : List PeerId)
    (missing : List Cid) (m' : QueryManager) (id : QueryId) (h : getInv m)
    (hs : QueryManager.sync m cid providers missing = some (m', id)) : getInv m' := by
  simp only [QueryManager.sync] at hs
  cases hl : QueryManager.sync_loop m.id_counter providers
      (QueryManager.mk (m.id_counter + 1) m.queries m.events) [] missing with
  | none => rw [hl] at hs; cases hs
  | some r =>
    obtain ⟨rm, rids⟩ := r
    rw [hl] at hs
    have h2 : getInv rm :=
      sync_loop_inv m.id_counter providers missing
        (QueryManager.mk (m.id_counter + 1) m.queries m.events) [] rm rids h hl
    simp only at hs
    split at hs
    · injection Option.some.inj hs with h3 h4
      subst h3
      exact getInvL_insertQ _ _ _ (start_query_inv rm _ _ _ _ _ h2) rfl
    · injection Option.some.inj hs with h3 h4
      subst h3
      exact getInvL_insertQ _ _ _ h2 rfl

theorem cancel_inv (m : QueryManager) (root : QueryId) (h : getInv m) :
    getInv (m.cancel root).1 := by
  unfold QueryManager.cancel
  cases hf : findQ m.queries root with
  | none => exact h
  | some query =>
    cases hs : query.state with
    | None =>
      simp only [hs]
      exact getInvL_insertQ _ _ _ (getInvL_eraseQ _ _ h)
        (h (root, query) (mem_of_findQ _ _ _ hf))
    | Get st =>
      simp only [hs]
      exact getInvL_eraseQ _ _ h
    | Sync st =>
      simp only [hs]
      exact getInvL_foldl_eraseQ _ _ (getInvL_eraseQ _ _ h)

theorem recv_sync_inv (m : QueryManager) (query : Header) (res : Except Cid Unit)
    (h : getInv m) : getInv (m.recv_sync query res) := h

theorem sync_query_inv (m : QueryManager) (id : QueryId)
    (f : QueryManager → Header → SyncState →
      Option (QueryManager × Transition SyncState (Except Cid Unit)))
    (m' : QueryManager)
    (hf : ∀ mgr hdr st m2 tr, getInv mgr → f mgr hdr st = some (m2, tr) → getInv m2)
    (h : getInv m) (hq : QueryManager.sync_query m id f = some m') : getInv m' := by
  cases hfind : findQ m.queries id with
  | none =>
    simp only [QueryManager.sync_query, hfind] at hq
    exact (Option.some.inj hq) ▸ h
  | some parent =>
    have h1 : getInv (QueryManager.mk m.id_counter (eraseQ m.queries id) m.events) :=
      getInvL_eraseQ _ _ h
    cases hst : parent.state with
    | None =>
      simp only [QueryManager.sync_query, hfind, hst] at hq
      exact (Option.some.inj hq) ▸ h1
    | Get st =>
      simp only [QueryManager.sync_query, hfind, hst] at hq
      exact (Option.some.inj hq) ▸ h1
    | Sync st =>
      simp only [QueryManager.sync_query, hfind, hst] at hq
      cases hfr : f (QueryManager.mk m.id_counter (eraseQ m.queries id) m.events)
          parent.hdr st with
      | none => simp only [hfr] at hq; cases hq
      | some r =>
        obtain ⟨m2, tr⟩ := r
        have h2 : getInv m2 := hf _ _ _ _ _ h1 hfr
        cases tr with
        | Next st' =>
          simp only [hfr] at hq
          exact (Option.some.inj hq) ▸ getInvL_insertQ _ _ _ h2 rfl
        | Complete res =>
          simp only [hfr] at hq
          exact (Option.some.inj hq) ▸ h2

theorem recv_get_inv (m : QueryManager) (query : Header) (res : Except Cid Unit)
    (m' : QueryManager) (h : getInv m)
    (hr : QueryManager.recv_get m query res = some m') : getInv m' := by
  cases hp : query.parent with
  | none =>
    simp only [QueryManager.recv_get, hp] at hr
    exact (Option.some.inj hr) ▸ h
  | some pid =>
    simp only [QueryManager.recv_get, hp] at hr
    apply sync_query_inv m pid _ m' ?_ h hr
    intro mgr hdr st m2 tr hm hfr
    cases res with
    | ok u =>
      simp only at hfr
      injection Option.some.inj hfr with h1 h2
      subst h1
      exact start_query_inv mgr _ _ _ _ _ hm
    | error c =>
      simp only at hfr
      injection Option.some.inj hfr with h1 h2
      subst h1
      exact hm

theorem queryInvB_get (hdr : Header) (st : GetState)
    (h : st.providers = [] ∨ st.block.isSome = true) :
    queryInvB ⟨hdr, State.Get st⟩ = true := by
  rcases h with h | h <;> simp [queryInvB, h]

theorem get_query_inv (m : QueryManager) (id : QueryId)
    (f : QueryManager → Header → GetState →
      Option (QueryManager × Transition GetState (Except Cid Unit)))
    (m' : QueryManager)
    (hf : ∀ mgr hdr st m2 tr, getInv mgr → f mgr hdr st = some (m2, tr) →
      getInv m2 ∧ ∀ st', tr = Transition.Next st' →
        (st'.providers = [] ∨ st'.block.isSome = true))
    (h : getInv m) (hq : QueryManager.get_query m id f = some m') : getInv m' := by
  cases hfind : findQ m.queries id with
  | none =>
    simp only [QueryManager.get_query, hfind] at hq
    exact (Option.some.inj hq) ▸ h
  | some parent =>
    have h1 : getInv (QueryManager.mk m.id_counter (eraseQ m.queries id) m.events) :=
      getInvL_eraseQ _ _ h
    cases hst : parent.state with
    | None =>
      simp only [QueryManager.get_query, hfind, hst] at hq
      exact (Option.some.inj hq) ▸ h1
    | Sync st =>
      simp only [QueryManager.get_query, hfind, hst] at hq
      exact (Option.some.inj hq) ▸ h1
    | Get st =>
      simp only [QueryManager.get_query, hfind, hst] at hq
      cases hfr : f (QueryManager.mk m.id_counter (eraseQ m.queries id) m.events)
          parent.hdr st with
      | none => simp only [hfr] at hq; cases hq
      | some r =>
        obtain ⟨m2, tr⟩ := r
        obtain ⟨h2, h3⟩ := hf _ _ _ _ _ h1 hfr
        cases tr with
        | Next st' =>
          simp only [hfr] at hq
          exact (Option.some.inj hq) ▸
            getInvL_insertQ _ _ _ h2 (queryInvB_get parent.hdr st' (h3 st' rfl))
        | Complete res =>
          simp only [hfr] at hq
          exact recv_get_inv m2 parent.hdr res m' h2 hq

theorem promote_provider_inv (mgr : QueryManager) (parent : Header) (cid : Cid)
    (st : GetState) (h : getInv mgr) :
    getInv (QueryManager.promote_provider mgr parent cid st).1 := by
  unfold QueryManager.promote_provider
  split
  · cases hl : st.providers.getLast? with
    | none => exact h
    | some peer => exact start_query_inv mgr _ _ _ _ _ h
  · exact h

theorem promote_provider_spec (mgr : QueryManager) (parent : Header) (cid : Cid)
    (st : GetState) :
    (QueryManager.promote_provider mgr parent cid st).2.providers = [] ∨
    ((QueryManager.promote_provider mgr parent cid st).2.block).isSome = true := by
  unfold QueryManager.promote_provider
  split
  case isTrue hc =>
    cases hl : st.providers.getLast? with
    | none => exact absurd (List.getLast?_eq_none_iff.1 hl) hc.2
    | some peer =>
      right
      rfl
  case isFalse hc =>
    rw [Decidable.not_and_iff_or_not] at hc
    rcases hc with hc | hc
    · right
      cases hb : st.block with
      | none => exact absurd hb hc
      | some b => rfl
    · left
      exact Decidable.not_not.1 hc

theorem recv_have_step_split (query : Header) (pr : QueryManager × GetState)
    (m2 : QueryManager) (tr : Transition GetState (Except Cid Unit))
    (h : (if pr.2.have' = [] ∧ pr.2.block = none ∧ pr.2.providers = [] then
            if pr.2.providers = [] then
              some (pr.1, Transition.Complete (Except.error query.cid))
            else some (pr.1, Transition.Complete (Except.ok ()))
          else some (pr.1, Transition.Next pr.2)) = some (m2, tr)) :
    m2 = pr.1 ∧ ∀ st', tr = Transition.Next st' → st' = pr.2 := by
  split at h
  · split at h
    · injection Option.some.inj h with h1 h2
      subst h2
      exact ⟨h1.symm, fun st' hst => by cases hst⟩
    · injection Option.some.inj h with h1 h2
      subst h2
      exact ⟨h1.symm, fun st' hst => by cases hst⟩
  · injection Option.some.inj h with h1 h2
    subst h2
    exact ⟨h1.symm, fun st' hst => by injection hst with h3; exact h3.symm⟩

theorem recv_have_step_spec (query : Header) (peer : PeerId) (hfl : Bool)
    (mgr : QueryManager) (parent : Header) (st : GetState) (m2 : QueryManager)
    (tr : Transition GetState (Except Cid Unit)) (hm : getInv mgr)
    (h : QueryManager.recv_have_step query peer hfl mgr parent st = some (m2, tr)) :
    getInv m2 ∧ ∀ st', tr = Transition.Next st' →
      (st'.providers = [] ∨ st'.block.isSome = true) := by
  simp only [QueryManager.recv_have_step] at h
  obtain ⟨hm2, hst⟩ := recv_have_step_split query _ m2 tr h
  subst hm2
  constructor
  · exact promote_provider_inv _ _ _ _ hm
  · intro st' htr
    rw [hst st' htr]
    exact promote_provider_spec _ _ _ _

theorem recv_have_inv (m : QueryManager) (query : Header) (peer : PeerId)
    (have_flag : Bool) (m' : QueryManager) (h : getInv m)
    (hr : QueryManager.recv_have m query peer have_flag = some m') : getInv m' := by
  cases hp : query.parent with
  | none => simp [QueryManager.recv_have, hp] at hr
  | some pid =>
    simp only [QueryManager.recv_have, hp] at hr
    apply get_query_inv m pid _ m' ?_ h hr
    intro mgr hdr st m2 tr hm hfr
    exact recv_have_step_spec query peer have_flag mgr hdr st m2 tr hm hfr

theorem recv_block_inv (m : QueryManager) (query : Header) (peer : PeerId)
    (block_flag : Bool) (m' : QueryManager) (h : getInv m)
    (hr : QueryManager.recv_block m query peer block_flag = some m') : getInv m' := by
  cases block_flag with
  | false =>
    simp only [QueryManager.recv_block, Bool.false_eq_true, if_false] at hr
    exact recv_have_inv m query peer false m' h hr
  | true =>
    simp only [QueryManager.recv_block, if_true] at hr
    cases hp : query.parent with
    | none => rw [hp] at hr; cases hr
    | some pid =>
      rw [hp] at hr
      apply get_query_inv m pid _ m' ?_ h hr
      intro mgr hdr st m2 tr hm hfr
      simp only [QueryManager.recv_block_step] at hfr
      injection Option.some.inj hfr with h1 h2
      subst h1
      subst h2
      exact ⟨hm, fun st' hst => by cases hst⟩

theorem recv_missing_blocks_loop_inv (root : QueryId) (providers : List PeerId) :
    ∀ (cs : List Cid) (m : QueryManager) (acc : List QueryId) (m2 : QueryManager)
      (ids : List QueryId), getInv m →
      QueryManager.recv_missing_blocks_loop root providers m acc cs = some (m2, ids) →
      getInv m2 := by
  intro cs
  induction cs with
  | nil =>
    intro m acc m2 ids h hs
    simp [QueryManager.recv_missing_blocks_loop] at hs
    rw [← hs.1]
    exact h
  | cons c cs ih =>
    intro m acc m2 ids h hs
    rw [QueryManager.recv_missing_blocks_loop] at hs
    cases hg : QueryManager.get m (some root) c providers with
    | none => rw [hg] at hs; cases hs
    | some r =>
      rw [hg] at hs
      exact ih r.1 (insertId acc r.2) m2 ids
        (get_inv m (some root) c providers r.1 r.2 h (by rw [hg])) hs

theorem recv_missing_blocks_inv (m : QueryManager) (query : Header)
    (missing : List Cid) (m' : QueryManager) (h : getInv m)
    (hr : QueryManager.recv_missing_blocks m query missing = some m') : getInv m' := by
  cases hp : query.parent with
  | none => simp [QueryManager.recv_missing_blocks, hp] at hr
  | some pid =>
    cases hfind : findQ m.queries pid with
    | none =>
      simp only [QueryManager.recv_missing_blocks, hp, hfind] at hr
      exact (Option.some.inj hr) ▸ h
    | some parent =>
      have h1 : getInv (QueryManager.mk m.id_counter (eraseQ m.queries pid) m.events) :=
        getInvL_eraseQ _ _ h
      cases hst : parent.state with
      | None =>
        simp only [QueryManager.recv_missing_blocks, hp, hfind, hst] at hr
        exact (Option.some.inj hr) ▸ h1
      | Get st =>
        simp only [QueryManager.recv_missing_blocks, hp, hfind, hst] at hr
        exact (Option.some.inj hr) ▸ h1
      | Sync st =>
        simp only [QueryManager.recv_missing_blocks, hp, hfind, hst] at hr
        cases hloop : QueryManager.recv_missing_blocks_loop parent.hdr.root st.providers
            (QueryManager.mk m.id_counter (eraseQ m.queries pid) m.events)
            st.missing missing with
        | none => rw [hloop] at hr; cases hr
        | some r =>
          obtain ⟨m2, ids⟩ := r
          rw [hloop] at hr
          have h2 : getInv m2 := recv_missing_blocks_loop_inv parent.hdr.root st.providers
            missing _ st.missing m2 ids h1 hloop
          have h3 : getInv (if ids = [] ∧ removeId st.children query.id = [] then
              m2.recv_sync parent.hdr (Except.ok ())
            else
              QueryManager.mk m2.id_counter
                (insertQ m2.queries pid ⟨parent.hdr,
                  State.Sync ⟨ids, removeId st.children query.id, st.providers⟩⟩)
                m2.events) := by
            split
            · exact h2
            · exact getInvL_insertQ _ _ _ h2 rfl
          simp only at hr
          split at hr
          · exact (Option.some.inj hr) ▸ h3
          · exact (Option.some.inj hr) ▸ h3

theorem inject_response_inv (m : QueryManager) (id : QueryId) (res : Response)
    (m' : QueryManager) (h : getInv m)
    (hr : QueryManager.inject_response m id res = some m') : getInv m' := by
  cases hfind : findQ m.queries id with
  | none =>
    simp only [QueryManager.inject_response, hfind] at hr
    exact (Option.some.inj hr) ▸ h
  | some query =>
    have h1 : getInv (QueryManager.mk m.id_counter (eraseQ m.queries id) m.events) :=
      getInvL_eraseQ _ _ h
    cases res with
    | Have peer hv =>
      simp only [QueryManager.inject_response, hfind] at hr
      exact recv_have_inv _ query.hdr peer hv m' h1 hr
    | Block peer bv =>
      simp only [QueryManager.inject_response, hfind] at hr
      exact recv_block_inv _ query.hdr peer bv m' h1 hr
    | MissingBlocks missing =>
      simp only [QueryManager.inject_response, hfind] at hr
      exact recv_missing_blocks_inv _ query.hdr missing m' h1 hr

/-- C2: spec invariant 2 — every live get composite with a non-empty
fallback `providers` list has a block sub-query in flight (`block` is
`Some`) — is preserved by every manager operation: `get`, `sync`,
`cancel`, and response injection. -/
theorem claim2_invariant_preserved :
    (∀ (m : QueryManager) (parent : Option QueryId) (cid : Cid) (ps : List PeerId)
        (m' : QueryManager) (id : QueryId), getInv m →
      QueryManager.get m parent cid ps = some (m', id) → getInv m') ∧
    (∀ (m : QueryManager) (cid : Cid) (providers : List PeerId) (missing : List Cid)
        (m' : QueryManager) (id : QueryId), getInv m →
      QueryManager.sync m cid providers missing = some (m', id) → getInv m') ∧
    (∀ (m : QueryManager) (root : QueryId), getInv m → getInv (m.cancel root).1) ∧
    (∀ (m : QueryManager) (id : QueryId) (res : Response) (m' : QueryManager),
      getInv m → m.inject_response id res = some m' → getInv m') :=
  ⟨get_inv, sync_inv, cancel_inv, inject_response_inv⟩

/-- C2 witness: the theorem's four parts applied to concrete states — a
`get` on the empty manager, a `sync` on the empty manager, a `cancel` on
the resulting get composite, and a `Block(peer, true)` response injected
into it; the invariant holds after each. -/
theorem claim2_witness :
    getInv ((QueryManager.get ⟨0, [], []⟩ none 7 [3]).getD (⟨0, [], []⟩, 0)).1 ∧
    getInv ((QueryManager.sync ⟨0, [], []⟩ 9 [5] [7]).getD (⟨0, [], []⟩, 0)).1 ∧
    getInv ((QueryManager.mk 2
      [(1, ⟨⟨1, 0, some 0, 7, "block"⟩, State.None⟩),
       (0, ⟨⟨0, 0, none, 7, "get"⟩, State.Get ⟨[], some 1, []⟩⟩)]
      [QueryEvent.Request 1 (Request.Block 1 7)]).cancel 0).1 ∧
    getInv ((QueryManager.inject_response (QueryManager.mk 2
      [(1, ⟨⟨1, 0, some 0, 7, "block"⟩, State.None⟩),
       (0, ⟨⟨0, 0, none, 7, "get"⟩, State.Get ⟨[], some 1, []⟩⟩)]
      [QueryEvent.Request 1 (Request.Block 1 7)]) 1 (Response.Block 1 true)).getD
        ⟨0, [], []⟩) :=
  ⟨claim2_invariant_preserved.1 ⟨0, [], []⟩ none 7 [3] _ 0
      (by intro p hp; simp at hp) rfl,
    claim2_invariant_preserved.2.1 ⟨0, [], []⟩ 9 [5] [7] _ 0
      (by intro p hp; simp at hp) rfl,
    claim2_invariant_preserved.2.2.1 (QueryManager.mk 2
      [(1, ⟨⟨1, 0, some 0, 7, "block"⟩, State.None⟩),
       (0, ⟨⟨0, 0, none, 7, "get"⟩, State.Get ⟨[], some 1, []⟩⟩)]
      [QueryEvent.Request 1 (Request.Block 1 7)]) 0
      (by intro p hp; simp only [List.mem_cons, List.not_mem_nil, or_false] at hp
          rcases hp with rfl | rfl <;> rfl),
    claim2_invariant_preserved.2.2.2 (QueryManager.mk 2
      [(1, ⟨⟨1, 0, some 0, 7, "block"⟩, State.None⟩),
       (0, ⟨⟨0, 0, none, 7, "get"⟩, State.Get ⟨[], some 1, []⟩⟩)]
      [QueryEvent.Request 1 (Request.Block 1 7)]) 1 (Response.Block 1 true) _
      (by intro p hp; simp only [List.mem_cons, List.not_mem_nil, or_false] at hp
          rcases hp with rfl | rfl <;> rfl) rfl⟩
